import Mathlib

/-!
# Verification of the stateless-blockchain RSA accumulator core

Shallow embedding of `src/accumulator/src/subroutines.rs` and
`src/runtime/src/stateless.rs` (a Substrate runtime using an RSA
accumulator), together with theorems settling the frozen claims.

Modelling conventions:
* `U256` values are modelled as `Nat`.  The unsigned `U256` operations of the
  `primitive_types` crate panic on overflow rather than wrap, and on every
  execution relevant to the claims the operands stay far below `2^256`
  (all modular values are reduced below the modulus `13`), so exact `Nat`
  arithmetic is a faithful model of the unsigned side.
* The `i128` Bezout-coefficient arithmetic inside `extended_gcd` is modelled
  with two's-complement wraparound (`wrap128`), which is the release-profile
  semantics of Rust signed arithmetic (debug builds would abort instead; in
  neither profile is an error value returned to the caller).  Alongside the
  result, the model returns a Boolean flag that is `true` exactly when every
  signed intermediate fits `i128` and every quotient fits the checked
  `i128::try_from` conversion; when the flag is `true` the wrapped run agrees
  with exact integer arithmetic on all profiles.
* Loops are modelled by structural recursion on an explicit fuel argument
  chosen large enough to be non-restrictive (each loop strictly decreases a
  natural-number measure bounded by the fuel), keeping every definition
  executable by the kernel.  `root_factor`, whose Rust original genuinely
  diverges on the empty slice, keeps the fuel visible in its result type.
-/

/-- Modelled from the spec: the constant `MODULUS` lives in the accumulator
crate root (`src/accumulator/src/lib.rs`), which is not under `src/`.  The
spec's reference test values (`mod_exp(2,7,N) = 11`, `mod_inverse(9) = 3`,
`mod_inverse(6) = 11`, ...) determine the reference test modulus `N = 13`. -/
def MODULUS : Nat := 13

/-- Strict-evaluation helper: `forceNat v k` is definitionally `k v` (see
`forceNat_eq`), but forces `v` to a numeral before continuing, so that kernel
reduction of the fuel recursions below runs in bounded stack depth.  It has no
semantic content. -/
def forceNat {α : Sort u} : Nat → (Nat → α) → α
  | 0, k => k 0
  | n + 1, k => k (n + 1)

/-- Strict-evaluation helper for `Int`, analogous to `forceNat`. -/
def forceInt {α : Sort u} : Int → (Int → α) → α
  | .ofNat n, k => k (.ofNat n)
  | .negSucc n, k => k (.negSucc n)

/-- Strict-evaluation helper for `Bool`, analogous to `forceNat`. -/
def forceBool {α : Sort u} : Bool → (Bool → α) → α
  | true, k => k true
  | false, k => k false

theorem forceNat_eq {α : Sort u} (v : Nat) (k : Nat → α) : forceNat v k = k v := by
  cases v <;> rfl

theorem forceInt_eq {α : Sort u} (v : Int) (k : Int → α) : forceInt v k = k v := by
  cases v <;> rfl

theorem forceBool_eq {α : Sort u} (v : Bool) (k : Bool → α) : forceBool v k = k v := by
  cases v <;> rfl

/-- Loop body of `mul_mod` (`subroutines.rs` lines 32-44): repeated-doubling
modular multiplication over the bits of `b`.  Fuel is decremented once per
halving of `b`, so `b + 1` fuel is never exhausted. -/
def mul_modAux : Nat → Nat → Nat → Nat → Nat → Nat
  | 0, result, _, _, modulus => result % modulus
  | fuel + 1, result, a, b, modulus =>
    if b = 0 then result % modulus
    else
      forceNat (if b % 2 = 1 then (result + a) % modulus else result) fun result' =>
      forceNat (a * 2 % modulus) fun a' =>
      mul_modAux fuel result' a' (b / 2) modulus

/-- `mul_mod` from `subroutines.rs`: the group multiplication,
`(a * b) % modulus` computed by repeated doubling. -/
def mul_mod (a b modulus : Nat) : Nat :=
  mul_modAux (b + 1) 0 (a % modulus) b modulus

/-- Loop body of `mod_exp` (`subroutines.rs` lines 10-26): square-and-multiply
over the bits of `exp`, including the source's early return at `exp == 1`
(which skips the final squaring) and its unreduced return of `1` when the
initial exponent is `0`. -/
def mod_expAux : Nat → Nat → Nat → Nat → Nat → Nat
  | 0, result, _, _, _ => result
  | fuel + 1, result, base, exp, modulus =>
    if exp = 0 then result
    else
      forceNat (if exp % 2 = 1 then mul_mod result base modulus else result) fun result' =>
      if exp = 1 then result'
      else
        forceNat (mul_mod base base modulus) fun base' =>
        mod_expAux fuel result' base' (exp / 2) modulus

/-- `mod_exp` from `subroutines.rs`: fast modular exponentiation. -/
def mod_exp (base exp modulus : Nat) : Nat :=
  mod_expAux (exp + 1) 1 (base % modulus) exp modulus

/-- Two's-complement wraparound at 128 bits: the value an `i128` holds after a
sequence of wrapping additions/multiplications whose exact result is `z`. -/
def wrap128 (z : Int) : Int := (z + 2 ^ 127) % 2 ^ 128 - 2 ^ 127

/-- Loop of `extended_gcd` (`subroutines.rs` lines 114-134).  The remainder
track (`old_r`, `r`) is exact unsigned arithmetic; the signed coefficient
tracks (`old_s`, `s`, `old_t`, `t`) wrap at 128 bits as Rust release-profile
`i128` arithmetic does.  The Boolean accumulator records whether every
quotient fit `i128::try_from` and every new coefficient stayed inside the
`i128` range, i.e. whether the run was exact.  Fuel is decremented once per
iteration and `r` strictly decreases, so `r + 1` fuel is never exhausted. -/
def egcdAux : Nat → Nat → Nat → Int → Int → Int → Int → Bool → (Nat × Int × Int) × Bool
  | 0, old_r, _, old_s, _, old_t, _, ok => ((old_r, old_s, old_t), ok)
  | fuel + 1, old_r, r, old_s, s, old_t, t, ok =>
    if r = 0 then ((old_r, old_s, old_t), ok)
    else
      forceNat (old_r / r) fun quotient =>
      forceNat (old_r - quotient * r) fun new_r =>
      forceInt (old_s - (quotient : Int) * s) fun new_s =>
      forceInt (old_t - (quotient : Int) * t) fun new_t =>
      forceBool (ok && decide (quotient < 2 ^ 127)
        && decide (-(2 ^ 127) ≤ new_s ∧ new_s < 2 ^ 127)
        && decide (-(2 ^ 127) ≤ new_t ∧ new_t < 2 ^ 127)) fun ok' =>
      forceInt (wrap128 new_s) fun ws =>
      forceInt (wrap128 new_t) fun wt =>
      egcdAux fuel r new_r s ws t wt ok'

/-- `extended_gcd` from `subroutines.rs`: iterative extended Euclidean
algorithm, returning `(gcd, x, y)` together with the exactness flag of the
signed-coefficient arithmetic. -/
def extended_gcd (a b : Nat) : (Nat × Int × Int) × Bool :=
  egcdAux (b + 1) a b 1 0 0 1 true

/-- `bezout` from `subroutines.rs`: Bezout coefficients of coprime inputs,
`none` when the gcd is not `1`. -/
def bezout (a b : Nat) : Option (Int × Int) :=
  match extended_gcd a b with
  | ((gcd, x, y), _) => if gcd ≠ 1 then none else some (x, y)

/-- `mod_inverse` from `subroutines.rs`: modular inverse modulo `MODULUS` via
the `x` coefficient of `extended_gcd`, with the source's sign fix-up. -/
def mod_inverse (elem : Nat) : Nat :=
  match extended_gcd elem MODULUS with
  | ((_, x, _), _) =>
    if x < 0 then (MODULUS - (-x).toNat) % MODULUS
    else x.toNat % MODULUS

/-- `shamir_trick` from `subroutines.rs`: combine an `x`-th and a `y`-th root
of a common value into an `xy`-th root, after the consistency check and the
Bezout computation, replacing a root by its modular inverse when its
coefficient is negative. -/
def shamir_trick (xth_root yth_root x y : Nat) : Option Nat :=
  if mod_exp xth_root x MODULUS ≠ mod_exp yth_root y MODULUS then none
  else
    match bezout x y with
    | none => none
    | some (a, b) =>
      let xr := if b < 0 then mod_inverse xth_root else xth_root
      let b' := if b < 0 then -b else b
      let yr := if a < 0 then mod_inverse yth_root else yth_root
      let a' := if a < 0 then -a else a
      some ((mod_exp xr b'.toNat MODULUS * mod_exp yr a'.toNat MODULUS) % MODULUS)

/-- Number of trailing zero bits, as `U256::trailing_zeros` reports it
(`256` on input `0`); fuel `256` covers every `U256` value. -/
def tzAux : Nat → Nat → Nat
  | 0, _ => 0
  | fuel + 1, n => if n % 2 = 1 then 0 else 1 + tzAux fuel (n / 2)

/-- Trailing zeros of a `U256` value. -/
def trailing_zeros (n : Nat) : Nat :=
  if n = 0 then 256 else tzAux 256 n

/-- The fixed deterministic Miller-Rabin witness bases of `miller_rabin`. -/
def mrBases : List Nat := [2, 3, 5, 7, 11, 13, 17, 19, 23, 29, 31, 37, 41]

/-- Inner squaring loop of `miller_rabin` (`for _ in 1..r`): returns `true`
when some square reaches `n - 1` (the source's `continue 'outer`), `false`
when the iterations are exhausted (the source's `return false`). -/
def mrInner : Nat → Nat → Nat → Bool
  | 0, _, _ => false
  | fuel + 1, x, n =>
    forceNat (mod_exp x 2 n) fun x' =>
    if x' = n - 1 then true else mrInner fuel x' n

/-- Outer base loop of `miller_rabin`: the source breaks out of the loop (and
hence returns `true`) as soon as a base exceeds `n - 2`. -/
def mrOuter : List Nat → Nat → Nat → Nat → Bool
  | [], _, _, _ => true
  | a :: rest, n, d, r =>
    if n - 2 < a then true
    else
      forceNat (mod_exp a d n) fun x =>
      if x = 1 ∨ x = n - 1 then mrOuter rest n d r
      else if mrInner (r - 1) x n then mrOuter rest n d r
      else false

/-- `miller_rabin` from `subroutines.rs`: deterministic Miller-Rabin over the
fixed base set `mrBases`. -/
def miller_rabin (n : Nat) : Bool :=
  let r := trailing_zeros (n - 1)
  let d := (n - 1) / 2 ^ r
  mrOuter mrBases n d r

/-- Retry loop of `hash_to_prime` (`subroutines.rs` lines 139-151).  Modelled
from the spec for the hash: `blake2_256` comes from `runtime_io`, outside
`src/`, so the digest-to-digest rehash is an abstract function argument, as is
the bound `LAMBDA` (a constant of the accumulator crate root, not under
`src/`).  The Rust loop has no iteration cap, so the model takes fuel and
returns `none` when the search has not ended within the fuel. -/
def hash_to_primeAux (blake : Nat → Nat) (lambda : Nat) : Nat → Nat → Option Nat
  | 0, _ => none
  | fuel + 1, hash =>
    let result := hash % lambda
    if miller_rabin result then some result
    else hash_to_primeAux blake lambda fuel (blake hash)

/-- `hash_to_prime` from `subroutines.rs`: hash the input bytes, reduce modulo
`LAMBDA`, and rehash the previous digest until the result passes
`miller_rabin`.  `blakeBytes` abstracts the initial byte hash and `blake` the
digest rehash. -/
def hash_to_prime (blakeBytes : List Nat → Nat) (blake : Nat → Nat)
    (lambda fuel : Nat) (elem : List Nat) : Option Nat :=
  hash_to_primeAux blake lambda fuel (blakeBytes elem)

/-- Recursion of `root_factor` (`subroutines.rs` lines 188-211) with explicit
fuel: the Rust function recurses on the two halves of the slice, seeding the
left half's recursion with `g` raised to the right half's product and vice
versa.  On the empty slice the Rust function recurses on the empty slice
forever; here every fuel value yields `none` in that case. -/
def root_factorAux : Nat → Nat → List Nat → Option (List Nat)
  | 0, _, _ => none
  | fuel + 1, g, elems =>
    if elems.length = 1 then some [g]
    else
      let n' := elems.length / 2
      forceNat ((elems.take n').foldl (fun acc e => mod_exp acc e MODULUS) g) fun g_left =>
      forceNat ((elems.drop n').foldl (fun acc e => mod_exp acc e MODULUS) g) fun g_right =>
      match root_factorAux fuel g_right (elems.take n'),
            root_factorAux fuel g_left (elems.drop n') with
      | some left, some right => some (left ++ right)
      | _, _ => none

/-- `root_factor` with the canonical sufficient fuel (`elems.length`): returns
`some` exactly on the inputs where the Rust recursion terminates. -/
def root_factor (g : Nat) (elems : List Nat) : Option (List Nat) :=
  root_factorAux elems.length g elems

/-- Product of all entries of `l` except the one at index `i`. -/
def prodExcept (l : List Nat) (i : Nat) : Nat :=
  (l.take i).prod * (l.drop (i + 1)).prod

/-- Square-and-multiply recomputation of a modular power over the bits of the
exponent, used only inside proofs to evaluate large modular powers with few
kernel steps (see `mp_eq`); it is a proof device, not an embedding of source
code. -/
def mpAux : Nat → Nat → Nat → Nat → Nat → Nat
  | 0, acc, _, _, n => acc % n
  | fuel + 1, acc, b, e, n =>
    if e = 0 then acc % n
    else
      forceNat (if e % 2 = 1 then acc * b % n else acc) fun acc2 =>
      forceNat (b * b % n) fun b2 =>
      mpAux fuel acc2 b2 (e / 2) n

/-- Fast modular power: `mp b e n = b ^ e % n` is `mp_eq`. -/
def mp (b e n : Nat) : Nat := mpAux (e + 1) 1 b e n

/-! ## Correctness of the modular arithmetic primitives -/

theorem modulus_def : MODULUS = 13 := rfl

theorem mul_modAux_eq (m : Nat) :
    ∀ fuel b result a, b ≤ fuel →
      mul_modAux fuel result a b m = (result + a * b) % m := by
  intro fuel
  induction fuel with
  | zero =>
    intro b result a hb
    interval_cases b
    simp [mul_modAux]
  | succ f ih =>
    intro b result a hb
    by_cases h0 : b = 0
    · subst h0; simp [mul_modAux]
    · have hrec : b / 2 ≤ f := by omega
      rw [mul_modAux, if_neg h0, forceNat_eq, forceNat_eq, ih _ _ _ hrec]
      by_cases hodd : b % 2 = 1
      · rw [if_pos hodd]
        have h1 : (result + a) % m + a * 2 % m * (b / 2)
            ≡ result + a + a * 2 * (b / 2) [MOD m] :=
          Nat.ModEq.add (Nat.mod_modEq _ _) (Nat.ModEq.mul_right _ (Nat.mod_modEq _ _))
        have h2 : result + a + a * 2 * (b / 2) = result + a * b := by
          have hb2 : b = 2 * (b / 2) + 1 := by omega
          conv_rhs => rw [hb2]
          ring
        exact h1.trans (h2 ▸ Nat.ModEq.refl _)
      · rw [if_neg hodd]
        have h1 : result + a * 2 % m * (b / 2)
            ≡ result + a * 2 * (b / 2) [MOD m] :=
          Nat.ModEq.add_left _ (Nat.ModEq.mul_right _ (Nat.mod_modEq _ _))
        have h2 : result + a * 2 * (b / 2) = result + a * b := by
          have hb2 : b = 2 * (b / 2) := by omega
          conv_rhs => rw [hb2]
          ring
        exact h1.trans (h2 ▸ Nat.ModEq.refl _)

theorem mul_mod_eq (a b m : Nat) : mul_mod a b m = a * b % m := by
  rw [mul_mod, mul_modAux_eq m (b + 1) b 0 (a % m) (by omega), Nat.zero_add,
    Nat.mod_mul_mod]

theorem mod_expAux_eq (m : Nat) (hm : 0 < m) :
    ∀ fuel exp result base, result < m → base < m → exp < fuel →
      mod_expAux fuel result base exp m = result * base ^ exp % m := by
  intro fuel
  induction fuel with
  | zero => omega
  | succ f ih =>
    intro exp result base hr hbase hfuel
    by_cases h0 : exp = 0
    · subst h0
      simp [mod_expAux, Nat.mod_eq_of_lt hr]
    · rw [mod_expAux, if_neg h0, forceNat_eq]
      have hres' : (if exp % 2 = 1 then mul_mod result base m else result) =
          result * base ^ (exp % 2) % m := by
        by_cases hodd : exp % 2 = 1
        · rw [if_pos hodd, hodd, pow_one, mul_mod_eq]
        · have h2 : exp % 2 = 0 := by omega
          rw [if_neg hodd, h2, pow_zero, Nat.mul_one, Nat.mod_eq_of_lt hr]
      by_cases h1 : exp = 1
      · subst h1
        rw [if_pos rfl, hres']
      · rw [if_neg h1, forceNat_eq, hres', mul_mod_eq]
        have hrec : exp / 2 < f := by omega
        rw [ih (exp / 2) _ _ (Nat.mod_lt _ hm) (Nat.mod_lt _ hm) hrec]
        have h1 : result * base ^ (exp % 2) % m * (base * base % m) ^ (exp / 2)
            ≡ result * base ^ (exp % 2) * (base * base) ^ (exp / 2) [MOD m] :=
          Nat.ModEq.mul (Nat.mod_modEq _ _) ((Nat.mod_modEq _ _).pow _)
        have h2 : result * base ^ (exp % 2) * (base * base) ^ (exp / 2)
            = result * base ^ exp := by
          have hsplit : exp = 2 * (exp / 2) + exp % 2 := by omega
          conv_rhs => rw [hsplit]
          rw [pow_add, pow_mul]
          ring
        calc result * base ^ (exp % 2) % m * (base * base % m) ^ (exp / 2) % m
            = result * base ^ (exp % 2) * (base * base) ^ (exp / 2) % m := h1
          _ = result * base ^ exp % m := by rw [h2]

theorem mod_exp_eq (b e m : Nat) (hm : 2 ≤ m) : mod_exp b e m = b ^ e % m := by
  rw [mod_exp, mod_expAux_eq m (by omega) (e + 1) e 1 (b % m) (by omega)
    (Nat.mod_lt _ (by omega)) (by omega), Nat.one_mul, ← Nat.pow_mod]

theorem mod_exp_lt (b e : Nat) : mod_exp b e MODULUS < 13 := by
  rw [modulus_def, mod_exp_eq b e 13 (by omega)]
  exact Nat.mod_lt _ (by omega)

theorem mpAux_eq (n : Nat) :
    ∀ fuel e acc b, e ≤ fuel → mpAux fuel acc b e n = acc * b ^ e % n := by
  intro fuel
  induction fuel with
  | zero =>
    intro e acc b he
    obtain rfl : e = 0 := Nat.le_zero.mp he
    simp only [mpAux, pow_zero, mul_one]
  | succ fuel ih =>
    intro e acc b he
    by_cases he0 : e = 0
    · subst he0
      simp only [mpAux, if_true, pow_zero, mul_one]
    · have hdiv : e / 2 ≤ fuel := by omega
      by_cases hodd : e % 2 = 1
      · simp only [mpAux, forceNat_eq]
        rw [if_neg he0, if_pos hodd, ih (e / 2) (acc * b % n) (b * b % n) hdiv]
        have key : acc * b % n * (b * b % n) ^ (e / 2) % n
            = acc * b * (b * b) ^ (e / 2) % n :=
          (Nat.mod_modEq (acc * b) n).mul ((Nat.mod_modEq (b * b) n).pow (e / 2))
        rw [key, ← pow_two, ← pow_mul]
        have hmul : acc * b * b ^ (2 * (e / 2)) = acc * b ^ (2 * (e / 2) + 1) := by
          rw [pow_succ]; ring
        have h2e : 2 * (e / 2) + 1 = e := by omega
        rw [hmul, h2e]
      · simp only [mpAux, forceNat_eq]
        rw [if_neg he0, if_neg hodd, ih (e / 2) acc (b * b % n) hdiv]
        have key : acc * (b * b % n) ^ (e / 2) % n
            = acc * (b * b) ^ (e / 2) % n :=
          ((Nat.mod_modEq (b * b) n).pow (e / 2)).mul_left acc
        rw [key, ← pow_two, ← pow_mul]
        have h2e : 2 * (e / 2) = e := by omega
        rw [h2e]

theorem mp_eq (b e n : Nat) : mp b e n = b ^ e % n := by
  rw [mp, mpAux_eq n (e + 1) e 1 b (Nat.le_succ e), one_mul]

/-- Bridge for concrete evaluations: a `mod_exp` value follows from the
corresponding `mp` value. -/
theorem mod_exp_eval (a e n x : Nat) (hn : 2 ≤ n) (h : mp a e n = x) :
    mod_exp a e n = x := by
  rw [mod_exp_eq a e n hn, ← mp_eq]
  exact h

/-- Unfolding step of `mrOuter` for a base whose first power is `1` or
`n - 1`. -/
theorem mrOuter_pass (a : Nat) (rest : List Nat) (n d r x : Nat)
    (h1 : ¬ n - 2 < a) (hx : mod_exp a d n = x) (h2 : x = 1 ∨ x = n - 1) :
    mrOuter (a :: rest) n d r = mrOuter rest n d r := by
  simp only [mrOuter, forceNat_eq]
  rw [hx, if_neg h1, if_pos h2]

/-- Unfolding step of `mrOuter` for a base that passes through the inner
squaring loop. -/
theorem mrOuter_spin (a : Nat) (rest : List Nat) (n d r x : Nat)
    (h1 : ¬ n - 2 < a) (hx : mod_exp a d n = x) (h2 : ¬ (x = 1 ∨ x = n - 1))
    (h3 : mrInner (r - 1) x n = true) :
    mrOuter (a :: rest) n d r = mrOuter rest n d r := by
  simp only [mrOuter, forceNat_eq]
  rw [hx, if_neg h1, if_neg h2, h3, if_pos rfl]

/-- Unfolding step of `mrOuter` for a base that witnesses compositeness. -/
theorem mrOuter_comp (a : Nat) (rest : List Nat) (n d r x : Nat)
    (h1 : ¬ n - 2 < a) (hx : mod_exp a d n = x) (h2 : ¬ (x = 1 ∨ x = n - 1))
    (h3 : mrInner (r - 1) x n = false) :
    mrOuter (a :: rest) n d r = false := by
  simp only [mrOuter, forceNat_eq]
  rw [hx, if_neg h1, if_neg h2, h3, if_neg Bool.false_ne_true]

/-! ## Exactness of `extended_gcd` when the signed arithmetic stays in range -/

theorem wrap128_eq_self (z : Int) (h1 : -(2 ^ 127) ≤ z) (h2 : z < 2 ^ 127) :
    wrap128 z = z := by
  unfold wrap128
  have hpow : (2 : Int) ^ 127 + 2 ^ 127 = 2 ^ 128 := by norm_num
  have h3 : 0 ≤ z + 2 ^ 127 := by linarith
  have h4 : z + 2 ^ 127 < 2 ^ 128 := by linarith
  rw [Int.emod_eq_of_lt h3 h4]
  ring

/-- One step of one signed-coefficient track of the Euclidean loop: the
alternating-sign invariant and the conservation identity
`abs s * old_r + abs old_s * r = C` are preserved, and the new coefficient is
bounded by `C`. -/
theorem egcd_step_track (os s or r nr q C : Int)
    (hsign : 0 ≤ os ∧ s ≤ 0 ∨ os ≤ 0 ∧ 0 ≤ s)
    (hq : 0 ≤ q) (hr : 1 ≤ r) (hnr : 0 ≤ nr)
    (heq : nr = or - q * r)
    (hinv : |s| * or + |os| * r = C) :
    |os - q * s| * r + |s| * nr = C ∧
    (0 ≤ s ∧ os - q * s ≤ 0 ∨ s ≤ 0 ∧ 0 ≤ os - q * s) ∧
    |os - q * s| ≤ C := by
  rcases hsign with ⟨h1, h2⟩ | ⟨h1, h2⟩
  · have hqs : q * s ≤ 0 := mul_nonpos_of_nonneg_of_nonpos hq h2
    have hns : 0 ≤ os - q * s := by linarith
    rw [abs_of_nonneg hns, abs_of_nonpos h2] at *
    rw [abs_of_nonneg h1] at hinv
    have hid : (os - q * s) * r + -s * nr = C := by
      rw [heq]; linear_combination hinv
    refine ⟨hid, Or.inr ⟨h2, hns⟩, ?_⟩
    have hb1 : (os - q * s) * 1 ≤ (os - q * s) * r := by
      exact mul_le_mul_of_nonneg_left hr hns
    have hb2 : 0 ≤ -s * nr := mul_nonneg (by linarith) hnr
    linarith
  · have hqs : 0 ≤ q * s := mul_nonneg hq h2
    have hns : os - q * s ≤ 0 := by linarith
    rw [abs_of_nonpos hns, abs_of_nonneg h2] at *
    rw [abs_of_nonpos h1] at hinv
    have hid : -(os - q * s) * r + s * nr = C := by
      rw [heq]; linear_combination hinv
    refine ⟨hid, Or.inl ⟨h2, hns⟩, ?_⟩
    have hb1 : -(os - q * s) * 1 ≤ -(os - q * s) * r := by
      exact mul_le_mul_of_nonneg_left hr (by linarith)
    have hb2 : 0 ≤ s * nr := mul_nonneg h2 hnr
    linarith

theorem egcdAux_exact (a b : Nat) (ha : a < 2 ^ 126) (hb : b < 2 ^ 126) :
    ∀ fuel (old_r r : Nat) (old_s s old_t t : Int),
      r ≤ fuel →
      old_r ≤ max a b → r ≤ max a b →
      (a : Int) * old_s + (b : Int) * old_t = (old_r : Int) →
      (a : Int) * s + (b : Int) * t = (r : Int) →
      |s| * (old_r : Int) + |old_s| * (r : Int) = (b : Int) →
      |t| * (old_r : Int) + |old_t| * (r : Int) = (a : Int) →
      (0 ≤ old_s ∧ s ≤ 0 ∨ old_s ≤ 0 ∧ 0 ≤ s) →
      (0 ≤ old_t ∧ t ≤ 0 ∨ old_t ≤ 0 ∧ 0 ≤ t) →
      ∀ ok, ∃ S T : Int,
        egcdAux fuel old_r r old_s s old_t t ok = ((Nat.gcd old_r r, S, T), ok) ∧
        (a : Int) * S + (b : Int) * T = (Nat.gcd old_r r : Int) := by
  intro fuel
  induction fuel with
  | zero =>
    intro old_r r old_s s old_t t hfuel _ _ h1 _ _ _ _ _ ok
    have hr0 : r = 0 := by omega
    subst hr0
    refine ⟨old_s, old_t, ?_, ?_⟩
    · simp [egcdAux, Nat.gcd_zero_right]
    · rw [Nat.gcd_zero_right]; exact h1
  | succ f ih =>
    intro old_r r old_s s old_t t hfuel hor hrb h1 h2 h3 h4 hsgs hsgt ok
    by_cases hr0 : r = 0
    · subst hr0
      refine ⟨old_s, old_t, ?_, ?_⟩
      · simp [egcdAux, Nat.gcd_zero_right]
      · rw [Nat.gcd_zero_right]; exact h1
    · have hrpos : 0 < r := Nat.pos_of_ne_zero hr0
      have hmaxN : max a b < 2 ^ 126 := max_lt ha hb
      have horN : old_r < 2 ^ 126 := lt_of_le_of_lt hor hmaxN
      set q : Nat := old_r / r with hq_def
      have hdm : q * r + old_r % r = old_r := by
        rw [hq_def, Nat.mul_comm]; exact Nat.div_add_mod old_r r
      have hmod : old_r - q * r = old_r % r := by
        conv_lhs => rw [← hdm]
        exact Nat.add_sub_cancel_left (q * r) (old_r % r)
      have hqr : q * r ≤ old_r := by
        rw [hq_def]; exact Nat.div_mul_le_self _ _
      have hcast : ((old_r % r : Nat) : Int) = (old_r : Int) - (q : Int) * (r : Int) := by
        rw [← hmod, Nat.cast_sub hqr]
        push_cast
        ring
      have hqle : q ≤ old_r := by rw [hq_def]; exact Nat.div_le_self _ _
      have hrI : (1 : Int) ≤ (r : Int) := by exact_mod_cast hrpos
      have hbI : (b : Int) < 2 ^ 126 := by exact_mod_cast hb
      have haI : (a : Int) < 2 ^ 126 := by exact_mod_cast ha
      have hpow : (2 : Int) ^ 126 ≤ 2 ^ 127 := by norm_num
      have hs := egcd_step_track old_s s (old_r : Int) (r : Int)
        ((old_r % r : Nat) : Int) ((q : Nat) : Int) (b : Int) hsgs
        (Int.natCast_nonneg _) hrI (Int.natCast_nonneg _) hcast h3
      have ht := egcd_step_track old_t t (old_r : Int) (r : Int)
        ((old_r % r : Nat) : Int) ((q : Nat) : Int) (a : Int) hsgt
        (Int.natCast_nonneg _) hrI (Int.natCast_nonneg _) hcast h4
      set ns : Int := old_s - (q : Int) * s with hns_def
      set nt : Int := old_t - (q : Int) * t with hnt_def
      obtain ⟨hs_inv, hs_sign, hs_bound⟩ := hs
      obtain ⟨ht_inv, ht_sign, ht_bound⟩ := ht
      have hs_abs := abs_le.mp hs_bound
      have ht_abs := abs_le.mp ht_bound
      have hns_range : -(2 ^ 127) ≤ ns ∧ ns < 2 ^ 127 := by
        constructor
        · linarith [hs_abs.1]
        · linarith [hs_abs.2]
      have hnt_range : -(2 ^ 127) ≤ nt ∧ nt < 2 ^ 127 := by
        constructor
        · linarith [ht_abs.1]
        · linarith [ht_abs.2]
      have hq_range : q < 2 ^ 127 := by omega
      have hflag : (ok && decide (q < 2 ^ 127)
          && decide (-(2 ^ 127) ≤ ns ∧ ns < 2 ^ 127)
          && decide (-(2 ^ 127) ≤ nt ∧ nt < 2 ^ 127)) = ok := by
        rw [decide_eq_true hq_range, decide_eq_true hns_range, decide_eq_true hnt_range]
        simp
      have h2' : (a : Int) * ns + (b : Int) * nt = ((old_r % r : Nat) : Int) := by
        rw [hcast, hns_def, hnt_def]
        linear_combination h1 - (q : Int) * h2
      have hnew_fuel : old_r % r ≤ f := by
        have := Nat.mod_lt old_r hrpos
        omega
      have hnew_max : old_r % r ≤ max a b := by
        have := Nat.mod_lt old_r hrpos
        omega
      obtain ⟨S, T, hrec_eq, hrec_id⟩ := ih r (old_r % r) s ns t nt hnew_fuel hrb
        hnew_max h2 h2' hs_inv ht_inv hs_sign ht_sign ok
      have hgcd : Nat.gcd old_r r = Nat.gcd r (old_r % r) := by
        rw [Nat.gcd_comm, Nat.gcd_rec r old_r, Nat.gcd_comm]
      refine ⟨S, T, ?_, ?_⟩
      · rw [egcdAux, if_neg hr0, forceNat_eq, forceNat_eq, forceInt_eq, forceInt_eq,
          forceBool_eq, forceInt_eq, forceInt_eq, ← hq_def, hmod, ← hns_def, ← hnt_def,
          hflag, wrap128_eq_self ns hns_range.1 hns_range.2,
          wrap128_eq_self nt hnt_range.1 hnt_range.2, hrec_eq, hgcd]
      · rw [hgcd]
        exact hrec_id

theorem extended_gcd_exact (a b : Nat) (ha : a < 2 ^ 126) (hb : b < 2 ^ 126) :
    ∃ S T : Int, extended_gcd a b = ((Nat.gcd a b, S, T), true) ∧
      (a : Int) * S + (b : Int) * T = (Nat.gcd a b : Int) := by
  have h := egcdAux_exact a b ha hb (b + 1) a b 1 0 0 1 (by omega)
    (le_max_left _ _) (le_max_right _ _)
    (by norm_num) (by norm_num) (by simp) (by simp)
    (Or.inl ⟨by norm_num, le_refl 0⟩) (Or.inr ⟨le_refl 0, by norm_num⟩)
    true
  exact h

/-- The remainder track of the Euclidean loop is exact unsigned arithmetic, so
the gcd component of the result is always the mathematical gcd, whatever the
signed tracks do. -/
theorem egcdAux_gcd : ∀ fuel (old_r r : Nat) (old_s s old_t t : Int) ok,
    r ≤ fuel → ((egcdAux fuel old_r r old_s s old_t t ok).1).1 = Nat.gcd old_r r := by
  intro fuel
  induction fuel with
  | zero =>
    intro old_r r old_s s old_t t ok hfuel
    have hr0 : r = 0 := by omega
    subst hr0
    simp [egcdAux, Nat.gcd_zero_right]
  | succ f ih =>
    intro old_r r old_s s old_t t ok hfuel
    by_cases hr0 : r = 0
    · subst hr0
      simp [egcdAux, Nat.gcd_zero_right]
    · have hrpos : 0 < r := Nat.pos_of_ne_zero hr0
      set q : Nat := old_r / r with hq_def
      have hdm : q * r + old_r % r = old_r := by
        rw [hq_def, Nat.mul_comm]; exact Nat.div_add_mod old_r r
      have hmod : old_r - q * r = old_r % r := by
        conv_lhs => rw [← hdm]
        exact Nat.add_sub_cancel_left (q * r) (old_r % r)
      have hnew_fuel : old_r % r ≤ f := by
        have := Nat.mod_lt old_r hrpos
        omega
      have hgcd : Nat.gcd old_r r = Nat.gcd r (old_r % r) := by
        rw [Nat.gcd_comm, Nat.gcd_rec r old_r, Nat.gcd_comm]
      rw [egcdAux, if_neg hr0, forceNat_eq, forceNat_eq, forceInt_eq, forceInt_eq,
        forceBool_eq, forceInt_eq, forceInt_eq, ← hq_def, hmod, ih _ _ _ _ _ _ _ hnew_fuel]
      exact hgcd.symm

theorem extended_gcd_gcd (a b : Nat) : ((extended_gcd a b).1).1 = Nat.gcd a b :=
  egcdAux_gcd (b + 1) a b 1 0 0 1 true (by omega)

/-- `bezout` returns a value exactly on coprime inputs, whatever the signed
tracks do. -/
theorem bezout_isSome_iff (a b : Nat) : (bezout a b).isSome = true ↔ Nat.gcd a b = 1 := by
  have h := extended_gcd_gcd a b
  unfold bezout
  rcases hev : extended_gcd a b with ⟨⟨g, x, y⟩, ok⟩
  rw [hev] at h
  simp only at h
  subst h
  by_cases hg : ((a.gcd b : Nat)) = 1
  · simp [hg]
  · simp [hg]

/-- On coprime inputs small enough for the signed arithmetic, `bezout` returns
exact Bezout coefficients. -/
theorem bezout_exact (a b : Nat) (ha : a < 2 ^ 126) (hb : b < 2 ^ 126)
    (hg : Nat.gcd a b = 1) :
    ∃ x y : Int, bezout a b = some (x, y) ∧ (a : Int) * x + (b : Int) * y = 1 := by
  obtain ⟨S, T, heq, hid⟩ := extended_gcd_exact a b ha hb
  refine ⟨S, T, ?_, ?_⟩
  · unfold bezout
    rw [heq, hg]
    simp
  · rw [hg] at hid
    exact_mod_cast hid

set_option maxRecDepth 10000 in
/-- Finite check: `mod_inverse` really inverts every unit of the group, i.e.
every residue in `[0, 13)` coprime to the modulus. -/
theorem mod_inverse_mul : ∀ w, w < 13 → Nat.gcd w 13 = 1 → w * mod_inverse w % 13 = 1 := by
  decide

instance fact_prime_13 : Fact (Nat.Prime 13) := ⟨by norm_num⟩

theorem mod_inverse_cast (w : Nat) (hw : w < 13) (hw0 : (w : ZMod 13) ≠ 0) :
    ((mod_inverse w : Nat) : ZMod 13) = (w : ZMod 13)⁻¹ := by
  have h13 : w ≠ 0 := by
    intro h0
    subst h0
    simp at hw0
  have hdvd : ¬(13 ∣ w) := by
    intro hdvd
    exact h13 (Nat.eq_zero_of_dvd_of_lt hdvd hw)
  have hgcd : Nat.gcd w 13 = 1 := by
    have hcop : Nat.Coprime 13 w := (Nat.Prime.coprime_iff_not_dvd (by norm_num)).mpr hdvd
    exact Nat.coprime_comm.mp hcop
  have hmul := mod_inverse_mul w hw hgcd
  have hcast : ((w * mod_inverse w % 13 : Nat) : ZMod 13) = ((1 : Nat) : ZMod 13) := by
    rw [hmul]
  rw [ZMod.natCast_mod, Nat.cast_mul, Nat.cast_one] at hcast
  have hmul2 : ((mod_inverse w : Nat) : ZMod 13) * (w : ZMod 13) = 1 := by
    rw [mul_comm]
    exact hcast
  exact eq_inv_of_mul_eq_one_left hmul2

/-! ## Correctness of `shamir_trick` -/

theorem nat_eq_of_cast_lt (a b : Nat) (ha : a < 13) (hb : b < 13)
    (h : (a : ZMod 13) = (b : ZMod 13)) : a = b := by
  have hv := congrArg ZMod.val h
  rwa [ZMod.val_cast_of_lt ha, ZMod.val_cast_of_lt hb] at hv

theorem mod_exp_cast (b e : Nat) :
    ((mod_exp b e MODULUS : Nat) : ZMod 13) = (b : ZMod 13) ^ e := by
  rw [modulus_def, mod_exp_eq b e 13 (by omega), ZMod.natCast_mod, Nat.cast_pow]

theorem cast_mod13 (n : Nat) : ((n % MODULUS : Nat) : ZMod 13) = (n : ZMod 13) := by
  rw [modulus_def, ZMod.natCast_mod]

set_option maxRecDepth 10000 in
theorem mod_inverse_zero : mod_inverse 0 = 0 := by decide

/-- The root adjusted for the sign of its Bezout coefficient, raised to the
absolute value of the coefficient, is the `zpow` of the root's value by the
signed coefficient. -/
theorem cast_pow_root (v : Nat) (B : Int) (u' : ZMod 13) (hv : v < 13)
    (hval : (v : ZMod 13) = u') (hu' : u' ≠ 0) :
    ((mod_exp (if B < 0 then mod_inverse v else v)
        (if B < 0 then -B else B).toNat MODULUS : Nat) : ZMod 13) = u' ^ B := by
  by_cases hB : B < 0
  · rw [if_pos hB, if_pos hB, mod_exp_cast,
      mod_inverse_cast v hv (by rw [hval]; exact hu'), hval]
    have hBneg : B = -((-B).toNat : Int) := by
      rw [Int.toNat_of_nonneg (by omega)]
      ring
    conv_rhs => rw [hBneg]
    rw [zpow_neg, zpow_natCast, ← inv_pow]
  · rw [if_neg hB, if_neg hB, mod_exp_cast, hval]
    have hBpos : B = (B.toNat : Int) := (Int.toNat_of_nonneg (by omega)).symm
    conv_rhs => rw [hBpos]
    rw [zpow_natCast]

/-- The central algebraic fact about `shamir_trick` on unit roots: if
`w1 = u ^ (c * y)` and `w2 = u ^ (c * x)` for a unit `u`, with `x, y`
coprime and within the exact-arithmetic range, then the trick succeeds and
returns the group element `u ^ c` (the `x * y`-th root of the common value
`u ^ (c * x * y)`). -/
theorem shamir_units (u : ZMod 13) (hu : u ≠ 0) (c x y w1 w2 : Nat)
    (hw1 : w1 < 13) (hw2 : w2 < 13)
    (h1 : (w1 : ZMod 13) = u ^ (c * y)) (h2 : (w2 : ZMod 13) = u ^ (c * x))
    (hg : Nat.gcd x y = 1)
    (hxb : x < 2 ^ 126) (hyb : y < 2 ^ 126) :
    ∃ r, shamir_trick w1 w2 x y = some r ∧ r < 13 ∧ (r : ZMod 13) = u ^ c := by
  have hcons : mod_exp w1 x MODULUS = mod_exp w2 y MODULUS := by
    apply nat_eq_of_cast_lt _ _ (by rw [modulus_def] at *; exact mod_exp_lt _ _)
      (by rw [modulus_def] at *; exact mod_exp_lt _ _)
    rw [mod_exp_cast, mod_exp_cast, h1, h2, ← pow_mul, ← pow_mul]
    ring_nf
  obtain ⟨A, B, hbz, hid⟩ := bezout_exact x y hxb hyb hg
  rw [shamir_trick, if_neg (by simp [hcons]), hbz]
  refine ⟨_, rfl, ?_, ?_⟩
  · rw [modulus_def]
    exact Nat.mod_lt _ (by norm_num)
  · rw [cast_mod13, Nat.cast_mul]
    rw [cast_pow_root w1 B (u ^ (c * y)) hw1 h1 (pow_ne_zero _ hu),
      cast_pow_root w2 A (u ^ (c * x)) hw2 h2 (pow_ne_zero _ hu)]
    rw [← zpow_natCast u (c * y), ← zpow_natCast u (c * x), ← zpow_mul, ← zpow_mul,
      ← zpow_add₀ hu]
    have hexp : ((c * y : Nat) : Int) * B + ((c * x : Nat) : Int) * A = (c : Int) := by
      push_cast
      linear_combination (c : Int) * hid
    rw [hexp, zpow_natCast]

/-- `shamir_trick` on two zero roots (the degenerate non-unit accumulator
state) also succeeds and returns zero. -/
theorem shamir_zero (x y : Nat) (hx : 1 ≤ x) (hy : 1 ≤ y)
    (hg : Nat.gcd x y = 1) (hxb : x < 2 ^ 126) (hyb : y < 2 ^ 126) :
    shamir_trick 0 0 x y = some 0 := by
  have hzero : ∀ n : Nat, 1 ≤ n → mod_exp 0 n MODULUS = 0 := by
    intro n hn
    rw [modulus_def, mod_exp_eq _ _ 13 (by omega), Nat.zero_pow (by omega), Nat.zero_mod]
  have hcons : mod_exp 0 x MODULUS = mod_exp 0 y MODULUS := by
    rw [hzero x (by omega), hzero y (by omega)]
  obtain ⟨A, B, hbz, hid⟩ := bezout_exact x y hxb hyb hg
  rw [shamir_trick, if_neg (by simp [hcons]), hbz]
  have hroot : (if B < 0 then mod_inverse 0 else 0) = 0 := by
    by_cases hB : B < 0
    · rw [if_pos hB, mod_inverse_zero]
    · rw [if_neg hB]
  have hroot2 : (if A < 0 then mod_inverse 0 else 0) = 0 := by
    by_cases hA : A < 0
    · rw [if_pos hA, mod_inverse_zero]
    · rw [if_neg hA]
  by_cases hB0 : B = 0
  · have hA1 : A = 1 ∧ x = 1 := by
      rw [hB0, mul_zero, add_zero] at hid
      have hdvd : (x : Int) ∣ 1 := Dvd.intro A (by linarith)
      have hx1 : x ∣ 1 := by exact_mod_cast hdvd
      have hx1' := Nat.dvd_one.mp hx1
      subst hx1'
      constructor
      · have : (1 : Int) * A = 1 := by push_cast at hid; linarith
        linarith
      · rfl
    have hAexp : 1 ≤ (if A < 0 then -A else A).toNat := by
      rw [if_neg (by omega : ¬A < 0)]
      omega
    simp only [hroot, hroot2, hzero _ hAexp, Nat.mul_zero, Nat.zero_mod]
  · have hexp : 1 ≤ (if B < 0 then -B else B).toNat := by
      by_cases hB : B < 0
      · rw [if_pos hB]; omega
      · rw [if_neg hB]; omega
    simp only [hroot, hzero _ hexp, Nat.zero_mul, Nat.zero_mod]

/-! ## Correctness of `root_factor` -/

theorem foldl_mod_exp :
    ∀ (l : List Nat) (g : Nat), l ≠ [] →
      l.foldl (fun acc e => mod_exp acc e MODULUS) g = g ^ l.prod % 13 := by
  intro l
  induction l with
  | nil => intro g h; exact absurd rfl h
  | cons e l' ih =>
    intro g _
    rw [List.foldl_cons]
    by_cases hl' : l' = []
    · subst hl'
      simp only [List.foldl_nil, List.prod_cons, List.prod_nil, Nat.mul_one]
      rw [modulus_def, mod_exp_eq _ _ 13 (by omega)]
    · rw [ih _ hl', modulus_def, mod_exp_eq _ _ 13 (by omega), List.prod_cons,
        ← Nat.pow_mod, ← pow_mul]

theorem prodExcept_cons_zero (a : Nat) (l : List Nat) :
    prodExcept (a :: l) 0 = l.prod := by
  simp [prodExcept]

theorem prodExcept_cons_succ (a : Nat) (l : List Nat) (i : Nat) :
    prodExcept (a :: l) (i + 1) = a * prodExcept l i := by
  rw [prodExcept, prodExcept, List.take_succ_cons, List.prod_cons, List.drop_succ_cons]
  ring

theorem prodExcept_mul_self (l : List Nat) (i : Nat) (h : i < l.length) :
    prodExcept l i * l[i] = l.prod := by
  rw [prodExcept, ← List.prod_take_mul_prod_drop l i, List.drop_eq_getElem_cons h,
    List.prod_cons]
  ring

theorem prodExcept_pos (l : List Nat) (i : Nat) (hpos : ∀ p ∈ l, 0 < p) :
    0 < prodExcept l i := by
  rw [prodExcept]
  have h1 : 0 < (l.take i).prod :=
    List.prod_pos fun a ha => hpos a (List.mem_of_mem_take ha)
  have h2 : 0 < (l.drop (i + 1)).prod :=
    List.prod_pos fun a ha => hpos a (List.mem_of_mem_drop ha)
  positivity

theorem root_factorAux_spec :
    ∀ fuel (elems : List Nat) (g : Nat), elems ≠ [] → elems.length ≤ fuel → g < 13 →
      ∃ l, root_factorAux fuel g elems = some l ∧ l.length = elems.length ∧
        ∀ i, (h : i < l.length) → l[i] = g ^ prodExcept elems i % 13 := by
  intro fuel
  induction fuel with
  | zero =>
    intro elems g hne hlen
    have : elems.length = 0 := by omega
    exact absurd (List.length_eq_zero.mp this) hne
  | succ f ih =>
    intro elems g hne hlen hg
    by_cases h1 : elems.length = 1
    · refine ⟨[g], ?_, ?_, ?_⟩
      · rw [root_factorAux, if_pos h1]
      · simpa using h1.symm
      · intro i hi
        simp only [List.length_singleton] at hi
        interval_cases i
        obtain ⟨e, rfl⟩ : ∃ e, elems = [e] := by
          match elems, h1 with
          | [e], _ => exact ⟨e, rfl⟩
        simp only [List.getElem_singleton]
        rw [prodExcept, List.take_zero, List.drop_succ_cons, List.drop_zero]
        simp [Nat.mod_eq_of_lt hg]
    · have hlen2 : 2 ≤ elems.length := by
        have := List.length_pos.mpr hne
        omega
      set n' : Nat := elems.length / 2 with hn'
      have hn'pos : 1 ≤ n' := by omega
      have hn'lt : n' < elems.length := by omega
      set L : List Nat := elems.take n' with hL
      set R : List Nat := elems.drop n' with hR
      have hLlen : L.length = n' := by
        rw [hL, List.length_take]
        omega
      have hRlen : R.length = elems.length - n' := by
        rw [hR, List.length_drop]
      have hLne : L ≠ [] := by
        intro h
        have := congrArg List.length h
        simp [hLlen] at this
        omega
      have hRne : R ≠ [] := by
        intro h
        have := congrArg List.length h
        simp [hRlen] at this
        omega
      have hgl : (elems.take n').foldl (fun acc e => mod_exp acc e MODULUS) g
          = g ^ L.prod % 13 := foldl_mod_exp L g hLne
      have hgr : (elems.drop n').foldl (fun acc e => mod_exp acc e MODULUS) g
          = g ^ R.prod % 13 := foldl_mod_exp R g hRne
      obtain ⟨left, hleft_eq, hleft_len, hleft⟩ :=
        ih L (g ^ R.prod % 13) hLne (by omega) (Nat.mod_lt _ (by omega))
      obtain ⟨right, hright_eq, hright_len, hright⟩ :=
        ih R (g ^ L.prod % 13) hRne (by omega) (Nat.mod_lt _ (by omega))
      refine ⟨left ++ right, ?_, ?_, ?_⟩
      · rw [root_factorAux, if_neg h1, forceNat_eq, forceNat_eq, ← hn', hgl, hgr,
          ← hL, ← hR, hleft_eq, hright_eq]
      · rw [List.length_append, hleft_len, hright_len, hLlen, hRlen]
        omega
      · intro i hi
        rw [List.length_append, hleft_len, hright_len, hLlen, hRlen] at hi
        by_cases hiL : i < n'
        · have hiL' : i < left.length := by omega
          rw [List.getElem_append_left hiL', hleft i hiL']
          rw [← Nat.pow_mod, ← pow_mul]
          congr 1
          have htake : elems.take i = L.take i := by
            rw [hL, List.take_take]
            congr 1
            omega
          have hdrop : elems.drop (i + 1) = L.drop (i + 1) ++ R := by
            conv_lhs => rw [← List.take_append_drop n' elems, ← hL, ← hR]
            exact List.drop_append_of_le_length (by omega)
          rw [prodExcept, prodExcept, htake, hdrop, List.prod_append]
          ring
        · have hiR : left.length ≤ i := by omega
          rw [List.getElem_append_right hiR, hright (i - left.length) (by omega)]
          rw [← Nat.pow_mod, ← pow_mul]
          congr 1
          have htake : elems.take i = L ++ R.take (i - n') := by
            conv_lhs => rw [← List.take_append_drop n' elems, ← hL, ← hR]
            rw [List.take_append_eq_append_take, List.take_of_length_le (by omega), hLlen]
          have hdrop : elems.drop (i + 1) = R.drop (i - n' + 1) := by
            rw [hR, List.drop_drop]
            congr 1
            omega
          rw [prodExcept, prodExcept, htake, hdrop, List.prod_append, hleft_len, hLlen]
          ring

/-! ## The accumulator engine and witness service (spec-modelled layer) -/

/-- Modelled from the spec: `batch_add` lives in the accumulator crate root,
which is not under `src/`.  Spec 4.4: "`new_state = state^(Π new_members)
mod N`, computed by folding `mod_exp` over the list"; only the state
component is used by the claims, so the aggregate and proof components are
omitted. -/
def batch_add (state : Nat) (elems : List Nat) : Nat :=
  elems.foldl (fun st e => mod_exp st e MODULUS) state

/-- Modelled from the spec: `create_all_mem_wit` (spec 4.5) "returns, for
each `i`, `state^(Π_{j≠i} members[j])` (via `root_factor`)"; the crate file
holding it is not under `src/`. -/
def create_all_mem_wit (state : Nat) (elems : List Nat) : Option (List Nat) :=
  root_factor state elems

/-- Modelled from the spec: `verify_mem_wit` (spec 4.5) "returns
`witness^member == state (mod N)`"; the crate file holding it is not under
`src/`. -/
def verify_mem_wit (state witness member : Nat) : Bool :=
  mod_exp witness member MODULUS == state

/-- Modelled from the spec: `batch_delete` (spec 4.4); the crate file holding
it is not under `src/`.  Every `(member, witness)` pair is verified against
the current state, any mismatch rejecting the whole batch (`none`, the
InvalidWitness error); on success the witnesses are repeatedly combined
pairwise with `shamir_trick`, the left operand accumulating the product of
the already-combined members, and the collapsed witness for the whole
remaining set becomes the new state.  `delStep` is the pairwise combination
step of that collapse. -/
def delStep (acc : Option (Nat × Nat)) (p : Nat × Nat) : Option (Nat × Nat) :=
  match acc with
  | none => none
  | some (wa, xa) =>
    match shamir_trick wa p.2 xa p.1 with
    | none => none
    | some w' => some (w', xa * p.1)

/-- Modelled from the spec: the batch deletion state transition built from
witness verification and the `delStep` collapse (see `delStep`). -/
def batch_delete (state : Nat) (dels : List (Nat × Nat)) : Option Nat :=
  if dels.all (fun p => verify_mem_wit state p.2 p.1) then
    match dels with
    | [] => some state
    | (x0, w0) :: rest => (rest.foldl delStep (some (w0, x0))).map Prod.fst
  else none

/-! ## The runtime module (`stateless.rs`) -/

/-- The UTXO record of `stateless.rs` (`pub_key: H256`, `id: u64`), with the
key modelled as a natural number. -/
structure UTXO where
  pub_key : Nat
  id : Nat

/-- The one-input-one-output transaction of `stateless.rs`; the witness field
is the `U2048` decoded from the little-endian byte vector. -/
structure Transaction where
  input : UTXO
  output : UTXO
  witness : Nat

/-- The three storage items of the `Stateless` module: `State` (the
accumulator value, default `2`), `SpentCoins` and `NewCoins`. -/
structure RuntimeState where
  state : Nat
  spentCoins : List (Nat × Nat)
  newCoins : List Nat

/-- `addTransaction` from `stateless.rs`: reject when the queue holds 100
pending transactions or the transfer is self-referential, hash the input
UTXO to a prime, verify the witness against the current state, hash the
output UTXO (the result is bound but never stored), and append the spent
element and witness to `SpentCoins`.  `hashfn` abstracts
`hash_to_prime ∘ encode` (the hash is external to `src/`); `none` models the
dispatch errors, which leave storage unchanged. -/
def addTransaction (hashfn : UTXO → Nat) (rs : RuntimeState) (tx : Transaction) :
    Option RuntimeState :=
  if 100 ≤ rs.spentCoins.length then none
  else if tx.input.pub_key = tx.output.pub_key then none
  else
    let spent_elem := hashfn tx.input
    if verify_mem_wit rs.state tx.witness spent_elem then
      let _new_elem := hashfn tx.output
      some { rs with spentCoins := rs.spentCoins ++ [(spent_elem, tx.witness)] }
    else none

/-- `mint` from `stateless.rs`: raise the state to the given element. -/
def mint (rs : RuntimeState) (elem : Nat) : RuntimeState :=
  { rs with state := mod_exp rs.state elem MODULUS }

/-- `on_finalize` from `stateless.rs`: when any coins were spent, batch-delete
them, batch-add the new coins, and store the resulting state; in every case
clear `SpentCoins` and `NewCoins`.  `none` models an aborting
`batch_delete`. -/
def on_finalize (rs : RuntimeState) : Option RuntimeState :=
  if 0 < rs.spentCoins.length then
    match batch_delete rs.state rs.spentCoins with
    | none => none
    | some st1 =>
      some { state := batch_add st1 rs.newCoins, spentCoins := [], newCoins := [] }
  else
    some { rs with spentCoins := [], newCoins := [] }

/-- The genesis storage: accumulator value `2`, both queues empty. -/
def genesisState : RuntimeState := ⟨2, [], []⟩

/-- Storage states reachable through the module's dispatchables and its
block-finalization hook. -/
inductive Reachable (hashfn : UTXO → Nat) : RuntimeState → Prop
  | genesis : Reachable hashfn genesisState
  | tx (rs rs' : RuntimeState) (t : Transaction) :
      Reachable hashfn rs → addTransaction hashfn rs t = some rs' → Reachable hashfn rs'
  | mint_step (rs : RuntimeState) (e : Nat) :
      Reachable hashfn rs → Reachable hashfn (mint rs e)
  | finalize (rs rs' : RuntimeState) :
      Reachable hashfn rs → on_finalize rs = some rs' → Reachable hashfn rs'

/-! ## The batch-delete collapse on honest witnesses -/

theorem delFold_units (u : ZMod 13) (hu : u ≠ 0) :
    ∀ (L : List (Nat × Nat)) (w xa : Nat),
      w < 13 → (w : ZMod 13) = u ^ ((L.map Prod.fst).prod) →
      1 ≤ xa →
      (∀ p ∈ L, 2 ≤ p.1) →
      (∀ p ∈ L, Nat.Coprime xa p.1) →
      ((L.map Prod.fst).Pairwise Nat.Coprime) →
      (∀ i, (h : i < L.length) → L[i].2 < 13 ∧
        ((L[i].2 : Nat) : ZMod 13) = u ^ (xa * prodExcept (L.map Prod.fst) i)) →
      xa * (L.map Prod.fst).prod < 2 ^ 126 →
      ∃ wf, L.foldl delStep (some (w, xa)) = some (wf, xa * (L.map Prod.fst).prod) ∧
        wf < 13 ∧ (wf : ZMod 13) = u := by
  intro L
  induction L with
  | nil =>
    intro w xa hw hwv hxa _ _ _ _ _
    refine ⟨w, by simp, hw, by simpa using hwv⟩
  | cons p L' ih =>
    obtain ⟨y, wp⟩ := p
    intro w xa hw hwv hxa hmem hcop hpair hwit hbound
    set M' : List Nat := L'.map Prod.fst with hM'
    have hmap : ((y, wp) :: L').map Prod.fst = y :: M' := by rw [List.map_cons]
    have hprod : (((y, wp) :: L').map Prod.fst).prod = y * M'.prod := by
      rw [hmap, List.prod_cons]
    have hy2 : 2 ≤ y := hmem (y, wp) (List.mem_cons_self _ _)
    have hM'pos : ∀ q ∈ M', 0 < q := by
      intro q hq
      obtain ⟨pq, hpq, rfl⟩ := List.mem_map.mp hq
      have := hmem pq (List.mem_cons_of_mem _ hpq)
      omega
    have hM'prod : 1 ≤ M'.prod := List.prod_pos hM'pos
    have hbound' : xa * (y * M'.prod) < 2 ^ 126 := by rw [← hprod]; exact hbound
    have hx_lt : xa < 2 ^ 126 := by
      have h1 : xa ≤ xa * (y * M'.prod) := by
        have h2 : 1 ≤ y * M'.prod := by
          calc 1 = 1 * 1 := by norm_num
          _ ≤ y * M'.prod := Nat.mul_le_mul (by omega) hM'prod
        calc xa = xa * 1 := by ring
        _ ≤ xa * (y * M'.prod) := Nat.mul_le_mul_left _ h2
      omega
    have hy_lt : y < 2 ^ 126 := by
      have h1 : y ≤ xa * (y * M'.prod) := by
        calc y = 1 * (y * 1) := by ring
        _ ≤ xa * (y * M'.prod) := Nat.mul_le_mul hxa (Nat.mul_le_mul_left _ hM'prod)
      omega
    obtain ⟨hwp_lt, hwit0⟩ := hwit 0 (by simp)
    simp only [List.getElem_cons_zero] at hwp_lt hwit0
    rw [hmap, prodExcept_cons_zero] at hwit0
    have hwit0' : ((wp : Nat) : ZMod 13) = u ^ (M'.prod * xa) := by
      rw [hwit0]; ring_nf
    have hw_form : (w : ZMod 13) = u ^ (M'.prod * y) := by
      rw [hwv, hprod]; ring_nf
    have hgxy : Nat.gcd xa y = 1 := hcop (y, wp) (List.mem_cons_self _ _)
    obtain ⟨w', hsh, hw'_lt, hw'_val⟩ := shamir_units u hu M'.prod xa y w wp hw hwp_lt
      hw_form hwit0' hgxy hx_lt hy_lt
    have hstep : delStep (some (w, xa)) (y, wp) = some (w', xa * y) := by
      rw [delStep]
      simp only [hsh]
    have hpair' : M'.Pairwise Nat.Coprime ∧ ∀ q ∈ M', Nat.Coprime y q := by
      rw [hmap] at hpair
      obtain ⟨hhead, htail⟩ := List.pairwise_cons.mp hpair
      exact ⟨htail, hhead⟩
    have hcop' : ∀ p ∈ L', Nat.Coprime (xa * y) p.1 := by
      intro q hq
      have h1 : Nat.Coprime xa q.1 := hcop q (List.mem_cons_of_mem _ hq)
      have h2 : Nat.Coprime y q.1 := by
        apply hpair'.2
        rw [hM']
        exact List.mem_map.mpr ⟨q, hq, rfl⟩
      exact Nat.Coprime.mul h1 h2
    have hwit' : ∀ i, (h : i < L'.length) → L'[i].2 < 13 ∧
        ((L'[i].2 : Nat) : ZMod 13) = u ^ ((xa * y) * prodExcept M' i) := by
      intro i hi
      obtain ⟨hlt, hvv⟩ := hwit (i + 1) (by simp; omega)
      rw [List.getElem_cons_succ] at hlt hvv
      refine ⟨hlt, ?_⟩
      rw [hvv, hmap, prodExcept_cons_succ]
      congr 1
      ring
    have hbound'' : (xa * y) * M'.prod < 2 ^ 126 := by
      rw [Nat.mul_assoc]; exact hbound'
    obtain ⟨wf, hfold, hwf_lt, hwf_val⟩ := ih w' (xa * y) hw'_lt
      hw'_val (Nat.mul_pos (by omega) (by omega))
      (fun q hq => hmem q (List.mem_cons_of_mem _ hq))
      hcop' hpair'.1 hwit' hbound''
    refine ⟨wf, ?_, hwf_lt, hwf_val⟩
    rw [List.foldl_cons, hstep, hfold, hprod, Nat.mul_assoc]

theorem delFold_zero :
    ∀ (L : List (Nat × Nat)) (xa : Nat),
      2 ≤ xa →
      (∀ p ∈ L, 2 ≤ p.1 ∧ p.2 = 0) →
      (∀ p ∈ L, Nat.Coprime xa p.1) →
      ((L.map Prod.fst).Pairwise Nat.Coprime) →
      xa * (L.map Prod.fst).prod < 2 ^ 126 →
      L.foldl delStep (some (0, xa)) = some (0, xa * (L.map Prod.fst).prod) := by
  intro L
  induction L with
  | nil => intro xa _ _ _ _ _; simp
  | cons p L' ih =>
    obtain ⟨y, wp⟩ := p
    intro xa hxa hmem hcop hpair hbound
    set M' : List Nat := L'.map Prod.fst with hM'
    have hmap : ((y, wp) :: L').map Prod.fst = y :: M' := by rw [List.map_cons]
    have hprod : (((y, wp) :: L').map Prod.fst).prod = y * M'.prod := by
      rw [hmap, List.prod_cons]
    obtain ⟨hy2, hwp0⟩ := hmem (y, wp) (List.mem_cons_self _ _)
    have hM'pos : ∀ q ∈ M', 0 < q := by
      intro q hq
      obtain ⟨pq, hpq, rfl⟩ := List.mem_map.mp hq
      have := (hmem pq (List.mem_cons_of_mem _ hpq)).1
      omega
    have hM'prod : 1 ≤ M'.prod := List.prod_pos hM'pos
    have hbound' : xa * (y * M'.prod) < 2 ^ 126 := by rw [← hprod]; exact hbound
    have hx_lt : xa < 2 ^ 126 := by
      have h1 : xa ≤ xa * (y * M'.prod) := by
        have h2 : 1 ≤ y * M'.prod := by
          calc 1 = 1 * 1 := by norm_num
          _ ≤ y * M'.prod := Nat.mul_le_mul (by omega) hM'prod
        calc xa = xa * 1 := by ring
        _ ≤ xa * (y * M'.prod) := Nat.mul_le_mul_left _ h2
      omega
    have hy_lt : y < 2 ^ 126 := by
      have h1 : y ≤ xa * (y * M'.prod) := by
        calc y = 1 * (y * 1) := by ring
        _ ≤ xa * (y * M'.prod) := Nat.mul_le_mul (by omega) (Nat.mul_le_mul_left _ hM'prod)
      omega
    have hgxy : Nat.gcd xa y = 1 := hcop (y, wp) (List.mem_cons_self _ _)
    have hsh := shamir_zero xa y (by omega) (by omega) hgxy hx_lt hy_lt
    have hstep : delStep (some (0, xa)) (y, wp) = some (0, xa * y) := by
      rw [delStep, hwp0]
      simp only [hsh]
    have hpair' : M'.Pairwise Nat.Coprime ∧ ∀ q ∈ M', Nat.Coprime y q := by
      rw [hmap] at hpair
      obtain ⟨hhead, htail⟩ := List.pairwise_cons.mp hpair
      exact ⟨htail, hhead⟩
    have hcop' : ∀ q ∈ L', Nat.Coprime (xa * y) q.1 := by
      intro q hq
      refine Nat.Coprime.mul (hcop q (List.mem_cons_of_mem _ hq)) ?_
      apply hpair'.2
      rw [hM']
      exact List.mem_map.mpr ⟨q, hq, rfl⟩
    rw [List.foldl_cons, hstep,
      ih (xa * y) (le_trans hxa (Nat.le_mul_of_pos_right xa (by omega)))
        (fun q hq => hmem q (List.mem_cons_of_mem _ hq))
        hcop' hpair'.1 (by rw [Nat.mul_assoc]; exact hbound'), hprod, Nat.mul_assoc]

/-! ## The add-then-delete round trip -/

theorem cast_pow_mod (a k : Nat) : ((a ^ k % 13 : Nat) : ZMod 13) = (a : ZMod 13) ^ k := by
  rw [ZMod.natCast_mod, Nat.cast_pow]

/-- The round-trip invariant, for batches whose member product stays inside
the exact range of the signed Bezout arithmetic. -/
theorem batch_roundtrip (s0 : Nat) (S : List Nat) (hne : S ≠ [])
    (hprime : ∀ p ∈ S, Nat.Prime p) (hcop : S.Pairwise Nat.Coprime)
    (hs0 : s0 < 13) (hbound : S.prod < 2 ^ 126) :
    ∃ wits, create_all_mem_wit s0 S = some wits ∧
      batch_delete (batch_add s0 S) (S.zip wits) = some s0 := by
  obtain ⟨wits, hrf, hlen, hentries⟩ :=
    root_factorAux_spec S.length S s0 hne (le_refl _) hs0
  refine ⟨wits, ?_, ?_⟩
  · rw [create_all_mem_wit, root_factor, hrf]
  · have hp2 : ∀ p ∈ S, 2 ≤ p := fun p hp => (hprime p hp).two_le
    have hstate : batch_add s0 S = s0 ^ S.prod % 13 := foldl_mod_exp S s0 hne
    -- all witnesses verify against the post-add state
    have hverify : (S.zip wits).all
        (fun p => verify_mem_wit (batch_add s0 S) p.2 p.1) = true := by
      rw [List.all_eq_true]
      intro p hp
      obtain ⟨i, hi, hpi⟩ := List.mem_iff_getElem.mp hp
      have hiS : i < S.length := by
        rw [List.length_zip] at hi
        omega
      have hiW : i < wits.length := by omega
      rw [List.getElem_zip] at hpi
      subst hpi
      simp only [verify_mem_wit, beq_iff_eq]
      rw [hentries i hiW, hstate, modulus_def, mod_exp_eq _ _ 13 (by omega),
        ← Nat.pow_mod, ← pow_mul, prodExcept_mul_self S i hiS]
    match S, wits, hne, hlen with
    | p0 :: S', w0 :: wits', _, hlen =>
    simp only [List.length_cons] at hlen
    have hlen' : wits'.length = S'.length := by omega
    rw [List.zip_cons_cons] at hverify ⊢
    rw [batch_delete, if_pos hverify]
    show ((S'.zip wits').foldl delStep (some (w0, p0))).map Prod.fst = some s0
    set L : List (Nat × Nat) := S'.zip wits' with hLdef
    have hmapL : L.map Prod.fst = S' := List.map_fst_zip S' wits' (by omega)
    have hLlen : L.length = S'.length := by
      rw [hLdef, List.length_zip]
      omega
    have hp02 : 2 ≤ p0 := hp2 p0 (List.mem_cons_self _ _)
    have hprod : p0 * S'.prod = (p0 :: S').prod := (List.prod_cons).symm
    have hpair' : S'.Pairwise Nat.Coprime ∧ ∀ q ∈ S', Nat.Coprime p0 q :=
      ⟨(List.pairwise_cons.mp hcop).2, (List.pairwise_cons.mp hcop).1⟩
    have hw0 : w0 = s0 ^ S'.prod % 13 := by
      have := hentries 0 (by simp)
      simpa [prodExcept_cons_zero] using this
    have hwitj : ∀ j, (h : j < wits'.length) →
        wits'[j] = s0 ^ (p0 * prodExcept S' j) % 13 := by
      intro j hj
      have := hentries (j + 1) (by simp; omega)
      rw [List.getElem_cons_succ, prodExcept_cons_succ] at this
      exact this
    have hboundL : p0 * (L.map Prod.fst).prod < 2 ^ 126 := by
      rw [hmapL, hprod]
      exact hbound
    by_cases hz : s0 = 0
    · -- the zero (non-unit) accumulator state
      subst hz
      have hS'pos : ∀ q ∈ S', 0 < q := by
        intro q hq
        have := hp2 q (List.mem_cons_of_mem _ hq)
        omega
      have hw0z : w0 = 0 := by
        rw [hw0, Nat.zero_pow (List.prod_pos hS'pos), Nat.zero_mod]
      have hmemz : ∀ p ∈ L, 2 ≤ p.1 ∧ p.2 = 0 := by
        intro p hp
        obtain ⟨j, hj, hpj⟩ := List.mem_iff_getElem.mp hp
        have hjS : j < S'.length := by omega
        have hjW : j < wits'.length := by omega
        have hLj : L[j] = (S'[j], wits'[j]) := List.getElem_zip
        rw [hLj] at hpj
        subst hpj
        refine ⟨hp2 _ (List.mem_cons_of_mem _ (List.getElem_mem _)), ?_⟩
        rw [hwitj j hjW, Nat.zero_pow ?_, Nat.zero_mod]
        have := prodExcept_pos S' j hS'pos
        positivity
      have hfold := delFold_zero L p0 hp02 hmemz
        (fun q hq => hpair'.2 q.1 (by rw [← hmapL]; exact List.mem_map.mpr ⟨q, hq, rfl⟩))
        (by rw [hmapL]; exact hpair'.1) hboundL
      rw [hw0z, hfold]
      simp
    · -- the unit accumulator state
      have hu : (s0 : ZMod 13) ≠ 0 := by
        intro h0
        have := (ZMod.natCast_zmod_eq_zero_iff_dvd s0 13).mp h0
        have := Nat.eq_zero_of_dvd_of_lt this hs0
        exact hz this
      have hw0lt : w0 < 13 := by
        rw [hw0]
        exact Nat.mod_lt _ (by omega)
      have hw0v : (w0 : ZMod 13) = (s0 : ZMod 13) ^ ((L.map Prod.fst).prod) := by
        rw [hw0, cast_pow_mod, hmapL]
      have hwitv : ∀ i, (h : i < L.length) → L[i].2 < 13 ∧
          ((L[i].2 : Nat) : ZMod 13)
            = (s0 : ZMod 13) ^ (p0 * prodExcept (L.map Prod.fst) i) := by
        intro j hj
        have hjS : j < S'.length := by omega
        have hjW : j < wits'.length := by omega
        have hLj : L[j] = (S'[j], wits'[j]) := List.getElem_zip
        rw [hLj]
        refine ⟨by rw [hwitj j hjW]; exact Nat.mod_lt _ (by omega), ?_⟩
        rw [hwitj j hjW, cast_pow_mod, hmapL]
      have hfold := delFold_units (s0 : ZMod 13) hu L w0 p0 hw0lt hw0v (by omega)
        (fun q hq => by
          obtain ⟨j, hj, hpj⟩ := List.mem_iff_getElem.mp hq
          have hjS : j < S'.length := by omega
          have hjW : j < wits'.length := by omega
          have hLj : L[j] = (S'[j], wits'[j]) := List.getElem_zip
          rw [hLj] at hpj
          subst hpj
          exact hp2 _ (List.mem_cons_of_mem _ (List.getElem_mem _)))
        (fun q hq => hpair'.2 q.1 (by rw [← hmapL]; exact List.mem_map.mpr ⟨q, hq, rfl⟩))
        (by rw [hmapL]; exact hpair'.1) hwitv hboundL
      obtain ⟨wf, hfold_eq, hwf_lt, hwf_val⟩ := hfold
      have hwfs0 : wf = s0 := nat_eq_of_cast_lt wf s0 hwf_lt hs0 hwf_val
      rw [hfold_eq]
      simp [hwfs0]

/-- Exactly when `shamir_trick` returns `none`: the consistency check fails or
the exponents are not coprime.  No size restriction is needed, because the
remainder track of `extended_gcd` is exact whatever the signed tracks do. -/
theorem shamir_trick_none_iff (w1 w2 x y : Nat) :
    shamir_trick w1 w2 x y = none ↔
      mod_exp w1 x MODULUS ≠ mod_exp w2 y MODULUS ∨ Nat.gcd x y ≠ 1 := by
  constructor
  · intro hnone
    by_cases hc : mod_exp w1 x MODULUS = mod_exp w2 y MODULUS
    · right
      intro hg1
      rw [shamir_trick, if_neg (by simp [hc])] at hnone
      have hsome := (bezout_isSome_iff x y).mpr hg1
      rcases hbz : bezout x y with _ | ⟨A, B⟩
      · rw [hbz] at hsome
        simp at hsome
      · rw [hbz] at hnone
        simp at hnone
    · left
      exact hc
  · intro h
    rcases h with hc | hg
    · rw [shamir_trick, if_pos hc]
    · by_cases hc : mod_exp w1 x MODULUS = mod_exp w2 y MODULUS
      · rw [shamir_trick, if_neg (by simp [hc])]
        have : bezout x y = none := by
          rcases hbz : bezout x y with _ | ⟨A, B⟩
          · rfl
          · have := (bezout_isSome_iff x y).mp (by rw [hbz]; rfl)
            exact absurd this hg
        rw [this]
      · rw [shamir_trick, if_pos hc]

/-- `shamir_trick` on consistent unit roots with coprime in-range exponents
returns an `x * y`-th root of the common value. -/
theorem shamir_correct_units (w1 w2 x y : Nat) (hw1 : w1 < 13) (hw2 : w2 < 13)
    (hu1 : (w1 : ZMod 13) ≠ 0) (hu2 : (w2 : ZMod 13) ≠ 0)
    (hcons : mod_exp w1 x MODULUS = mod_exp w2 y MODULUS)
    (hg : Nat.gcd x y = 1) (hxb : x < 2 ^ 126) (hyb : y < 2 ^ 126) :
    ∃ r, shamir_trick w1 w2 x y = some r ∧ r < 13 ∧
      (r : ZMod 13) ^ (x * y) = (w1 : ZMod 13) ^ x := by
  obtain ⟨A, B, hbz, hid⟩ := bezout_exact x y hxb hyb hg
  have hh : (w2 : ZMod 13) ^ y = (w1 : ZMod 13) ^ x := by
    have := congrArg (fun n : Nat => (n : ZMod 13)) hcons
    simpa only [mod_exp_cast] using this.symm
  have hne : (w1 : ZMod 13) ^ x ≠ 0 := pow_ne_zero _ hu1
  rw [shamir_trick, if_neg (by simp [hcons]), hbz]
  refine ⟨_, rfl, ?_, ?_⟩
  · rw [modulus_def]
    exact Nat.mod_lt _ (by norm_num)
  · rw [cast_mod13, Nat.cast_mul,
      cast_pow_root w1 B (w1 : ZMod 13) hw1 rfl hu1,
      cast_pow_root w2 A (w2 : ZMod 13) hw2 rfl hu2]
    have hW1 : (w1 : ZMod 13) ≠ 0 := hu1
    have hW2 : (w2 : ZMod 13) ≠ 0 := hu2
    calc ((w1 : ZMod 13) ^ B * (w2 : ZMod 13) ^ A) ^ (x * y)
        = ((w1 : ZMod 13) ^ B) ^ ((x * y : Nat) : Int)
            * ((w2 : ZMod 13) ^ A) ^ ((x * y : Nat) : Int) := by
          rw [mul_pow, zpow_natCast, zpow_natCast]
      _ = (w1 : ZMod 13) ^ (B * ((x * y : Nat) : Int))
            * (w2 : ZMod 13) ^ (A * ((x * y : Nat) : Int)) := by
          rw [← zpow_mul, ← zpow_mul]
      _ = ((w1 : ZMod 13) ^ ((x : Nat) : Int)) ^ (B * (y : Int))
            * ((w2 : ZMod 13) ^ ((y : Nat) : Int)) ^ (A * (x : Int)) := by
          rw [← zpow_mul, ← zpow_mul]
          congr 1 <;> congr 1 <;> push_cast <;> ring
      _ = ((w1 : ZMod 13) ^ x) ^ (B * (y : Int))
            * ((w1 : ZMod 13) ^ x) ^ (A * (x : Int)) := by
          rw [zpow_natCast, zpow_natCast, hh]
      _ = ((w1 : ZMod 13) ^ x) ^ (B * (y : Int) + A * (x : Int)) := by
          rw [← zpow_add₀ hne]
      _ = (w1 : ZMod 13) ^ x := by
          have he3 : B * (y : Int) + A * (x : Int) = 1 := by linarith [hid]
          rw [he3, zpow_one]

/-! ## Termination behaviour of `root_factor` -/

theorem root_factorAux_nil : ∀ fuel g, root_factorAux fuel g [] = none := by
  intro fuel
  induction fuel with
  | zero => intro g; rfl
  | succ f ih =>
    intro g
    rw [root_factorAux]
    simp only [List.length_nil, List.take_nil, List.drop_nil, List.foldl_nil,
      forceNat_eq, ih g]
    norm_num

theorem root_factorAux_isSome :
    ∀ fuel (elems : List Nat) (g : Nat), elems ≠ [] → elems.length ≤ fuel →
      (root_factorAux fuel g elems).isSome = true := by
  intro fuel
  induction fuel with
  | zero =>
    intro elems g hne hlen
    have h0 : elems.length = 0 := by omega
    exact absurd (List.length_eq_zero.mp h0) hne
  | succ f ih =>
    intro elems g hne hlen
    by_cases h1 : elems.length = 1
    · rw [root_factorAux, if_pos h1]
      rfl
    · have hlen2 : 2 ≤ elems.length := by
        have := List.length_pos.mpr hne
        omega
      have hn'pos : 1 ≤ elems.length / 2 := by omega
      have hn'lt : elems.length / 2 < elems.length := by omega
      have hLne : elems.take (elems.length / 2) ≠ [] := by
        apply List.length_pos.mp
        rw [List.length_take]
        omega
      have hRne : elems.drop (elems.length / 2) ≠ [] := by
        apply List.length_pos.mp
        rw [List.length_drop]
        omega
      have hLlen : (elems.take (elems.length / 2)).length ≤ f := by
        rw [List.length_take]
        omega
      have hRlen : (elems.drop (elems.length / 2)).length ≤ f := by
        rw [List.length_drop]
        omega
      obtain ⟨l1, hl1⟩ := Option.isSome_iff_exists.mp
        (ih (elems.take (elems.length / 2)) _ hLne hLlen)
      obtain ⟨l2, hl2⟩ := Option.isSome_iff_exists.mp
        (ih (elems.drop (elems.length / 2)) _ hRne hRlen)
      rw [root_factorAux, if_neg h1, forceNat_eq, forceNat_eq, hl1, hl2]
      rfl

/-! ## `hash_to_prime` and the runtime storage invariants -/

theorem hash_to_primeAux_spec (blake : Nat → Nat) (lambda : Nat) (hl : 0 < lambda) :
    ∀ fuel hash r, hash_to_primeAux blake lambda fuel hash = some r →
      r < lambda ∧ miller_rabin r = true := by
  intro fuel
  induction fuel with
  | zero =>
    intro hash r h
    simp [hash_to_primeAux] at h
  | succ f ih =>
    intro hash r h
    rw [hash_to_primeAux] at h
    by_cases hmr : miller_rabin (hash % lambda) = true
    · rw [if_pos hmr] at h
      obtain rfl := Option.some.inj h
      exact ⟨Nat.mod_lt _ hl, hmr⟩
    · rw [if_neg hmr] at h
      exact ih _ _ h

theorem addTransaction_newCoins (hashfn : UTXO → Nat) (rs : RuntimeState)
    (tx : Transaction) (rs' : RuntimeState)
    (h : addTransaction hashfn rs tx = some rs') : rs'.newCoins = rs.newCoins := by
  simp only [addTransaction] at h
  split_ifs at h with h1 h2 h3
  · obtain rfl := Option.some.inj h.symm
    rfl

theorem on_finalize_newCoins (rs rs' : RuntimeState)
    (h : on_finalize rs = some rs') : rs'.newCoins = [] := by
  rw [on_finalize] at h
  by_cases h1 : 0 < rs.spentCoins.length
  · rw [if_pos h1] at h
    rcases hbd : batch_delete rs.state rs.spentCoins with _ | st1
    · rw [hbd] at h
      simp at h
    · rw [hbd] at h
      obtain rfl := Option.some.inj h
      rfl
  · rw [if_neg h1] at h
    obtain rfl := Option.some.inj h
    rfl

theorem reachable_newCoins_nil (hashfn : UTXO → Nat) :
    ∀ rs, Reachable hashfn rs → rs.newCoins = [] := by
  intro rs hr
  induction hr with
  | genesis => rfl
  | tx rs0 rs' t _ hstep ih => rw [addTransaction_newCoins hashfn rs0 t rs' hstep, ih]
  | mint_step rs0 e _ ih => exact ih
  | finalize rs0 rs' _ hstep _ => exact on_finalize_newCoins rs0 rs' hstep

theorem batch_add_nil (st : Nat) : batch_add st [] = st := rfl

/-- With `NewCoins` empty, the state transition of `on_finalize` is entirely
determined by `SpentCoins`: the inner `batch_add` is the identity. -/
theorem on_finalize_spent_only (rs : RuntimeState) (hnil : rs.newCoins = [])
    (hspent : 0 < rs.spentCoins.length) :
    on_finalize rs
      = (batch_delete rs.state rs.spentCoins).map (fun st1 => ⟨st1, [], []⟩) := by
  rw [on_finalize, if_pos hspent, hnil]
  rcases hbd : batch_delete rs.state rs.spentCoins with _ | st1
  · rfl
  · rfl

/-! ## Exactness whenever the flag stays true -/

theorem egcdAux_flag_mono : ∀ fuel (old_r r : Nat) (old_s s old_t t : Int) ok,
    (egcdAux fuel old_r r old_s s old_t t ok).2 = true → ok = true := by
  intro fuel
  induction fuel with
  | zero => intro old_r r old_s s old_t t ok h; exact h
  | succ f ih =>
    intro old_r r old_s s old_t t ok h
    by_cases hr0 : r = 0
    · subst hr0
      rw [egcdAux, if_pos rfl] at h
      exact h
    · rw [egcdAux, if_neg hr0, forceNat_eq, forceNat_eq, forceInt_eq, forceInt_eq,
        forceBool_eq, forceInt_eq, forceInt_eq] at h
      have := ih _ _ _ _ _ _ _ h
      simp only [Bool.and_eq_true] at this
      exact this.1.1.1

/-- If the exactness flag survives a run of the Euclidean loop, the returned
coefficients satisfy the Bezout identity: no wrap occurred, so the wrapped
run agrees with exact integer arithmetic. -/
theorem egcdAux_flag_exact (a b : Nat) : ∀ fuel (old_r r : Nat) (old_s s old_t t : Int)
    (ok : Bool),
    (a : Int) * old_s + (b : Int) * old_t = (old_r : Int) →
    (a : Int) * s + (b : Int) * t = (r : Int) →
    ∀ (g : Nat) (x y : Int), egcdAux fuel old_r r old_s s old_t t ok = ((g, x, y), true) →
      (a : Int) * x + (b : Int) * y = (g : Int) := by
  intro fuel
  induction fuel with
  | zero =>
    intro old_r r old_s s old_t t ok h1 h2 g x y heq
    rw [egcdAux] at heq
    injection heq with hA hB
    injection hA with hg hxy
    injection hxy with hx hy
    subst hg; subst hx; subst hy
    exact h1
  | succ f ih =>
    intro old_r r old_s s old_t t ok h1 h2 g x y heq
    by_cases hr0 : r = 0
    · subst hr0
      rw [egcdAux, if_pos rfl] at heq
      injection heq with hA hB
      injection hA with hg hxy
      injection hxy with hx hy
      subst hg; subst hx; subst hy
      exact h1
    · rw [egcdAux, if_neg hr0, forceNat_eq, forceNat_eq, forceInt_eq, forceInt_eq,
        forceBool_eq, forceInt_eq, forceInt_eq] at heq
      have hflag : (egcdAux f r (old_r - old_r / r * r) s
          (wrap128 (old_s - (old_r / r : Nat) * s)) t
          (wrap128 (old_t - (old_r / r : Nat) * t))
          (ok && decide (old_r / r < 2 ^ 127)
            && decide (-(2 ^ 127) ≤ old_s - (old_r / r : Nat) * s ∧
                old_s - (old_r / r : Nat) * s < 2 ^ 127)
            && decide (-(2 ^ 127) ≤ old_t - (old_r / r : Nat) * t ∧
                old_t - (old_r / r : Nat) * t < 2 ^ 127))).2 = true := by
        rw [heq]
      have hok' := egcdAux_flag_mono _ _ _ _ _ _ _ _ hflag
      simp only [Bool.and_eq_true, decide_eq_true_eq] at hok'
      obtain ⟨⟨⟨hok, hq⟩, hns⟩, hnt⟩ := hok'
      rw [wrap128_eq_self _ hns.1 hns.2, wrap128_eq_self _ hnt.1 hnt.2] at heq
      have hrpos : 0 < r := Nat.pos_of_ne_zero hr0
      set q : Nat := old_r / r with hq_def
      have hdm : q * r + old_r % r = old_r := by
        rw [hq_def, Nat.mul_comm]; exact Nat.div_add_mod old_r r
      have hmod : old_r - q * r = old_r % r := by
        conv_lhs => rw [← hdm]
        exact Nat.add_sub_cancel_left (q * r) (old_r % r)
      have hcast : ((old_r % r : Nat) : Int)
          = (old_r : Int) - (q : Int) * (r : Int) := by
        rw [← hmod, Nat.cast_sub (by rw [hq_def]; exact Nat.div_mul_le_self _ _)]
        push_cast
        ring
      rw [hmod] at heq
      have h2' : (a : Int) * (old_s - (q : Int) * s)
          + (b : Int) * (old_t - (q : Int) * t)
          = ((old_r % r : Nat) : Int) := by
        rw [hcast]
        linear_combination h1 - (q : Int) * h2
      exact ih r (old_r % r) s _ t _ _ h2 h2' g x y heq

/-! ## The claims -/

set_option maxRecDepth 40000

/-- Claim C3: for every group element `g` (an integer in `[0, N)`) and every
non-empty list `elems`, `root_factor g elems` returns a list aligned
index-for-index with `elems` whose `i`-th entry is
`g ^ (product of the other entries) mod N`; a single-element list returns
`[g]` unchanged; and `root_factor 2 [3,5,7,11] = [2,8,5,5]` exactly. -/
theorem claim_C3 :
    (∀ (g : Nat) (elems : List Nat), g < 13 → elems ≠ [] →
      ∃ l, root_factor g elems = some l ∧ l.length = elems.length ∧
        ∀ i, (h : i < l.length) → l[i] = g ^ prodExcept elems i % 13) ∧
    (∀ (g e : Nat), root_factor g [e] = some [g]) ∧
    root_factor 2 [3, 5, 7, 11] = some [2, 8, 5, 5] := by
  refine ⟨?_, ?_, by decide⟩
  · intro g elems hg hne
    exact root_factorAux_spec elems.length elems g hne (le_refl _) hg
  · intro g e
    rfl

theorem claim_C3_witness :
    (2 : Nat) < 13 ∧ ([3, 5] : List Nat) ≠ [] ∧
    ∃ l, root_factor 2 [3, 5] = some l ∧ l.length = ([3, 5] : List Nat).length ∧
      ∀ i, (h : i < l.length) → l[i] = 2 ^ prodExcept [3, 5] i % 13 :=
  ⟨by norm_num, by simp, claim_C3.1 2 [3, 5] (by norm_num) (by simp)⟩

/-- Claim C5: whenever the signed-coefficient arithmetic of `extended_gcd`
stays within the supported range (the returned exactness flag is `true`),
the result `(g, x, y)` satisfies `a*x + b*y = g` and `g = gcd a b`; the
spec's concrete values hold; for coprime inputs the identity specialises to
`a*x + b*y = 1`; and `bezout` returns a value exactly on coprime inputs
(unconditionally, since the remainder track is exact unsigned
arithmetic). -/
theorem claim_C5 :
    (∀ (a b g : Nat) (x y : Int), extended_gcd a b = ((g, x, y), true) →
      (a : Int) * x + (b : Int) * y = (g : Int) ∧ g = Nat.gcd a b) ∧
    extended_gcd 180 150 = ((30, 1, -1), true) ∧
    extended_gcd 13 17 = ((1, 4, -3), true) ∧
    (∀ (a b : Nat) (x y : Int), extended_gcd a b = ((1, x, y), true) →
      (a : Int) * x + (b : Int) * y = 1) ∧
    (∀ a b : Nat, (bezout a b).isSome = true ↔ Nat.gcd a b = 1) ∧
    bezout 4 10 = none ∧
    bezout 3434 2423 = some (-997, 1413) := by
  have hexact : ∀ (a b g : Nat) (x y : Int), extended_gcd a b = ((g, x, y), true) →
      (a : Int) * x + (b : Int) * y = (g : Int) := by
    intro a b g x y h
    exact egcdAux_flag_exact a b (b + 1) a b 1 0 0 1 true (by norm_num) (by norm_num)
      g x y h
  refine ⟨?_, by decide, by decide, ?_, bezout_isSome_iff, by decide, by decide⟩
  · intro a b g x y h
    refine ⟨hexact a b g x y h, ?_⟩
    have hgcd := extended_gcd_gcd a b
    rw [h] at hgcd
    exact hgcd
  · intro a b x y h
    have := hexact a b 1 x y h
    simpa using this

theorem claim_C5_witness :
    extended_gcd 180 150 = ((30, 1, -1), true) ∧
    (180 : Int) * 1 + (150 : Int) * (-1) = (30 : Nat) ∧ (30 : Nat) = Nat.gcd 180 150 :=
  ⟨by decide, (claim_C5.1 180 150 30 1 (-1) (by decide)).1,
    (claim_C5.1 180 150 30 1 (-1) (by decide)).2⟩

/-- Claim C6: for every group element `a` (an integer in `[0, N)`) coprime to
the modulus, `mod_inverse a` is the modular inverse of `a`, and the spec's
concrete values hold. -/
theorem claim_C6 :
    (∀ a : Nat, a < 13 → Nat.gcd a 13 = 1 → a * mod_inverse a % 13 = 1) ∧
    mod_inverse 9 = 3 ∧ mod_inverse 6 = 11 :=
  ⟨mod_inverse_mul, by decide, by decide⟩

theorem claim_C6_witness :
    (9 : Nat) < 13 ∧ Nat.gcd 9 13 = 1 ∧ 9 * mod_inverse 9 % 13 = 1 :=
  ⟨by norm_num, by decide, claim_C6.1 9 (by norm_num) (by decide)⟩

set_option maxHeartbeats 1000000 in
/-- Evaluation of `miller_rabin` at the prime `4222234741`: every
base passes, the large modular powers being computed through the certified
fast power `mp` (`mod_exp_eval`). -/
theorem miller_rabin_pos32 : miller_rabin 4222234741 = true := by
  show mrOuter [2, 3, 5, 7, 11, 13, 17, 19, 23, 29, 31, 37, 41] 4222234741 1055558685 2 = true
  rw [mrOuter_spin 2 [3, 5, 7, 11, 13, 17, 19, 23, 29, 31, 37, 41] 4222234741 1055558685 2 2877757422 (by decide)
      (mod_exp_eval 2 1055558685 4222234741 2877757422 (by norm_num) (by decide)) (by decide) (by decide),
    mrOuter_pass 3 [5, 7, 11, 13, 17, 19, 23, 29, 31, 37, 41] 4222234741 1055558685 2 4222234740 (by decide)
      (mod_exp_eval 3 1055558685 4222234741 4222234740 (by norm_num) (by decide)) (by decide),
    mrOuter_pass 5 [7, 11, 13, 17, 19, 23, 29, 31, 37, 41] 4222234741 1055558685 2 4222234740 (by decide)
      (mod_exp_eval 5 1055558685 4222234741 4222234740 (by norm_num) (by decide)) (by decide),
    mrOuter_pass 7 [11, 13, 17, 19, 23, 29, 31, 37, 41] 4222234741 1055558685 2 4222234740 (by decide)
      (mod_exp_eval 7 1055558685 4222234741 4222234740 (by norm_num) (by decide)) (by decide),
    mrOuter_spin 11 [13, 17, 19, 23, 29, 31, 37, 41] 4222234741 1055558685 2 1344477319 (by decide)
      (mod_exp_eval 11 1055558685 4222234741 1344477319 (by norm_num) (by decide)) (by decide) (by decide),
    mrOuter_pass 13 [17, 19, 23, 29, 31, 37, 41] 4222234741 1055558685 2 4222234740 (by decide)
      (mod_exp_eval 13 1055558685 4222234741 4222234740 (by norm_num) (by decide)) (by decide),
    mrOuter_pass 17 [19, 23, 29, 31, 37, 41] 4222234741 1055558685 2 4222234740 (by decide)
      (mod_exp_eval 17 1055558685 4222234741 4222234740 (by norm_num) (by decide)) (by decide),
    mrOuter_spin 19 [23, 29, 31, 37, 41] 4222234741 1055558685 2 1344477319 (by decide)
      (mod_exp_eval 19 1055558685 4222234741 1344477319 (by norm_num) (by decide)) (by decide) (by decide),
    mrOuter_pass 23 [29, 31, 37, 41] 4222234741 1055558685 2 1 (by decide)
      (mod_exp_eval 23 1055558685 4222234741 1 (by norm_num) (by decide)) (by decide),
    mrOuter_spin 29 [31, 37, 41] 4222234741 1055558685 2 1344477319 (by decide)
      (mod_exp_eval 29 1055558685 4222234741 1344477319 (by norm_num) (by decide)) (by decide) (by decide),
    mrOuter_spin 31 [37, 41] 4222234741 1055558685 2 2877757422 (by decide)
      (mod_exp_eval 31 1055558685 4222234741 2877757422 (by norm_num) (by decide)) (by decide) (by decide),
    mrOuter_spin 37 [41] 4222234741 1055558685 2 2877757422 (by decide)
      (mod_exp_eval 37 1055558685 4222234741 2877757422 (by norm_num) (by decide)) (by decide) (by decide),
    mrOuter_spin 41 [] 4222234741 1055558685 2 2877757422 (by decide)
      (mod_exp_eval 41 1055558685 4222234741 2877757422 (by norm_num) (by decide)) (by decide) (by decide)]
  rfl

set_option maxHeartbeats 1000000 in
/-- Evaluation of `miller_rabin` at the prime `187278659180417234321`: every
base passes, the large modular powers being computed through the certified
fast power `mp` (`mod_exp_eval`). -/
theorem miller_rabin_pos67 : miller_rabin 187278659180417234321 = true := by
  show mrOuter [2, 3, 5, 7, 11, 13, 17, 19, 23, 29, 31, 37, 41] 187278659180417234321 11704916198776077145 4 = true
  rw [mrOuter_spin 2 [3, 5, 7, 11, 13, 17, 19, 23, 29, 31, 37, 41] 187278659180417234321 11704916198776077145 4 124565058569644205910 (by decide)
      (mod_exp_eval 2 11704916198776077145 187278659180417234321 124565058569644205910 (by norm_num) (by decide)) (by decide) (by decide),
    mrOuter_spin 3 [5, 7, 11, 13, 17, 19, 23, 29, 31, 37, 41] 187278659180417234321 11704916198776077145 4 498985356405784917 (by decide)
      (mod_exp_eval 3 11704916198776077145 187278659180417234321 498985356405784917 (by norm_num) (by decide)) (by decide) (by decide),
    mrOuter_spin 5 [7, 11, 13, 17, 19, 23, 29, 31, 37, 41] 187278659180417234321 11704916198776077145 4 78040001787311897081 (by decide)
      (mod_exp_eval 5 11704916198776077145 187278659180417234321 78040001787311897081 (by norm_num) (by decide)) (by decide) (by decide),
    mrOuter_spin 7 [11, 13, 17, 19, 23, 29, 31, 37, 41] 187278659180417234321 11704916198776077145 4 16618575166226549285 (by decide)
      (mod_exp_eval 7 11704916198776077145 187278659180417234321 16618575166226549285 (by norm_num) (by decide)) (by decide) (by decide),
    mrOuter_spin 11 [13, 17, 19, 23, 29, 31, 37, 41] 187278659180417234321 11704916198776077145 4 78040001787311897081 (by decide)
      (mod_exp_eval 11 11704916198776077145 187278659180417234321 78040001787311897081 (by norm_num) (by decide)) (by decide) (by decide),
    mrOuter_spin 13 [17, 19, 23, 29, 31, 37, 41] 187278659180417234321 11704916198776077145 4 85329416823560235972 (by decide)
      (mod_exp_eval 13 11704916198776077145 187278659180417234321 85329416823560235972 (by norm_num) (by decide)) (by decide) (by decide),
    mrOuter_spin 17 [19, 23, 29, 31, 37, 41] 187278659180417234321 11704916198776077145 4 85329416823560235972 (by decide)
      (mod_exp_eval 17 11704916198776077145 187278659180417234321 85329416823560235972 (by norm_num) (by decide)) (by decide) (by decide),
    mrOuter_pass 19 [23, 29, 31, 37, 41] 187278659180417234321 11704916198776077145 4 1 (by decide)
      (mod_exp_eval 19 11704916198776077145 187278659180417234321 1 (by norm_num) (by decide)) (by decide),
    mrOuter_pass 23 [29, 31, 37, 41] 187278659180417234321 11704916198776077145 4 1 (by decide)
      (mod_exp_eval 23 11704916198776077145 187278659180417234321 1 (by norm_num) (by decide)) (by decide),
    mrOuter_spin 29 [31, 37, 41] 187278659180417234321 11704916198776077145 4 78040001787311897081 (by decide)
      (mod_exp_eval 29 11704916198776077145 187278659180417234321 78040001787311897081 (by norm_num) (by decide)) (by decide) (by decide),
    mrOuter_pass 31 [37, 41] 187278659180417234321 11704916198776077145 4 187278659180417234320 (by decide)
      (mod_exp_eval 31 11704916198776077145 187278659180417234321 187278659180417234320 (by norm_num) (by decide)) (by decide),
    mrOuter_spin 37 [41] 187278659180417234321 11704916198776077145 4 85329416823560235972 (by decide)
      (mod_exp_eval 37 11704916198776077145 187278659180417234321 85329416823560235972 (by norm_num) (by decide)) (by decide) (by decide),
    mrOuter_spin 41 [] 187278659180417234321 11704916198776077145 4 498985356405784917 (by decide)
      (mod_exp_eval 41 11704916198776077145 187278659180417234321 498985356405784917 (by norm_num) (by decide)) (by decide) (by decide)]
  rfl

set_option maxHeartbeats 1000000 in
/-- Evaluation of `miller_rabin` at the composite `51456119958243`: the
base `2` already witnesses compositeness, the large modular power being
computed through the certified fast power `mp` (`mod_exp_eval`). -/
theorem miller_rabin_comp46 : miller_rabin 51456119958243 = false := by
  show mrOuter [2, 3, 5, 7, 11, 13, 17, 19, 23, 29, 31, 37, 41] 51456119958243 25728059979121 1 = false
  rw [mrOuter_comp 2 [3, 5, 7, 11, 13, 17, 19, 23, 29, 31, 37, 41] 51456119958243 25728059979121 1 48143088992000 (by decide)
      (mod_exp_eval 2 25728059979121 51456119958243 48143088992000 (by norm_num) (by decide)) (by decide) (by decide)]

set_option maxHeartbeats 2000000 in
/-- Claim C7: `miller_rabin` is the deterministic Miller-Rabin test over the
fixed witness base set 2, 3, 5, 7, 11, 13, 17, 19, 23, 29, 31, 37, 41, and it
returns exactly the spec's values on the fifteen listed inputs. -/
theorem claim_C7 :
    mrBases = [2, 3, 5, 7, 11, 13, 17, 19, 23, 29, 31, 37, 41] ∧
    miller_rabin 5 = true ∧ miller_rabin 7 = true ∧ miller_rabin 241 = true ∧
    miller_rabin 7919 = true ∧ miller_rabin 48131 = true ∧
    miller_rabin 76463 = true ∧ miller_rabin 4222234741 = true ∧
    miller_rabin 187278659180417234321 = true ∧
    miller_rabin 21 = false ∧ miller_rabin 87 = false ∧ miller_rabin 155 = false ∧
    miller_rabin 9167 = false ∧ miller_rabin 102398 = false ∧
    miller_rabin 801435 = false ∧ miller_rabin 51456119958243 = false :=
  ⟨rfl, by decide, by decide, by decide, by decide, by decide, by decide,
    miller_rabin_pos32, miller_rabin_pos67, by decide, by decide, by decide,
    by decide, by decide, by decide, miller_rabin_comp46⟩

/-- Claim C8: whenever the `hash_to_prime` retry loop terminates (within any
fuel), the returned value is below the bound `LAMBDA` and passes
`miller_rabin`; the result is a pure function of the input bytes, obtained by
hashing, reducing modulo `LAMBDA`, and rehashing the previous digest on
failure.  The hash and the bound are modelled as parameters, being outside
`src/`. -/
theorem claim_C8 (blakeBytes : List Nat → Nat) (blake : Nat → Nat)
    (lambda fuel : Nat) (elem : List Nat) (r : Nat) (hl : 0 < lambda)
    (h : hash_to_prime blakeBytes blake lambda fuel elem = some r) :
    r < lambda ∧ miller_rabin r = true := by
  rw [hash_to_prime] at h
  exact hash_to_primeAux_spec blake lambda hl fuel (blakeBytes elem) r h

theorem claim_C8_witness :
    (0 : Nat) < 10 ∧
    hash_to_prime (fun _ => 7) (fun h => h) 10 1 [] = some 7 ∧
    (7 < 10 ∧ miller_rabin 7 = true) :=
  ⟨by norm_num, by decide, claim_C8 (fun _ => 7) (fun h => h) 10 1 [] 7 (by norm_num)
    (by decide)⟩

/-- Claim C9: `addTransaction` never changes `NewCoins` (the output UTXO's
prime is computed but dropped), every reachable storage state has an empty
`NewCoins`, and therefore the `batch_add` inside `on_finalize` always
receives the empty element list: the state transition is determined by
`SpentCoins` alone. -/
theorem claim_C9 (hashfn : UTXO → Nat) :
    (∀ rs tx rs', addTransaction hashfn rs tx = some rs' →
      rs'.newCoins = rs.newCoins) ∧
    (∀ rs, Reachable hashfn rs → rs.newCoins = []) ∧
    (∀ rs, rs.newCoins = [] → 0 < rs.spentCoins.length →
      on_finalize rs
        = (batch_delete rs.state rs.spentCoins).map (fun st1 => ⟨st1, [], []⟩)) ∧
    (∀ st, batch_add st [] = st) :=
  ⟨fun rs tx rs' h => addTransaction_newCoins hashfn rs tx rs' h,
    reachable_newCoins_nil hashfn,
    fun rs h1 h2 => on_finalize_spent_only rs h1 h2,
    batch_add_nil⟩

theorem claim_C9_witness :
    Reachable (fun _ => 0) genesisState ∧ genesisState.newCoins = [] :=
  ⟨Reachable.genesis, (claim_C9 (fun _ => 0)).2.1 genesisState Reachable.genesis⟩

/-- Claim C10: `root_factor` terminates on every non-empty list (any fuel at
least the list length suffices, and the canonical fuel is enough), but on the
empty list the recursion never reaches the single-element base case: every
fuel value is exhausted, which is the fuel rendering of the Rust function's
divergence on the empty slice. -/
theorem claim_C10 :
    (∀ (g : Nat) (elems : List Nat), elems ≠ [] →
      (root_factor g elems).isSome = true) ∧
    (∀ (g : Nat) (elems : List Nat), elems ≠ [] → ∀ fuel, elems.length ≤ fuel →
      (root_factorAux fuel g elems).isSome = true) ∧
    (∀ (g fuel : Nat), root_factorAux fuel g [] = none) := by
  refine ⟨?_, ?_, ?_⟩
  · intro g elems hne
    exact root_factorAux_isSome elems.length elems g hne (le_refl _)
  · intro g elems hne fuel hf
    exact root_factorAux_isSome fuel elems g hne hf
  · intro g fuel
    exact root_factorAux_nil fuel g

theorem claim_C10_witness :
    (root_factor 2 [5]).isSome = true ∧ root_factorAux 7 2 [] = none :=
  ⟨claim_C10.1 2 [5] (by simp), claim_C10.2.2 2 7⟩

/-- Claim C2 (amended): `shamir_trick` returns `none` exactly when the
consistency check fails or the exponents are not coprime (for all inputs);
and for reduced roots (group elements below the modulus) and positive
exponents within the exact range of the signed Bezout arithmetic
(below `2^126`), it returns `Some r` with `r^(x*y) ≡ xth_root^x (mod N)`.
The spec's four concrete examples hold. -/
theorem claim_C2 :
    (∀ w1 w2 x y : Nat, shamir_trick w1 w2 x y = none ↔
      mod_exp w1 x MODULUS ≠ mod_exp w2 y MODULUS ∨ Nat.gcd x y ≠ 1) ∧
    (∀ w1 w2 x y : Nat, w1 < 13 → w2 < 13 → 1 ≤ x → 1 ≤ y →
      x < 2 ^ 126 → y < 2 ^ 126 →
      mod_exp w1 x MODULUS = mod_exp w2 y MODULUS → Nat.gcd x y = 1 →
      ∃ r, shamir_trick w1 w2 x y = some r ∧
        r ^ (x * y) % 13 = mod_exp w1 x MODULUS) ∧
    shamir_trick 11 6 7 5 = some 7 ∧ shamir_trick 11 7 7 11 = some 6 ∧
    shamir_trick 6 7 5 11 = some 11 ∧ shamir_trick 12 7 7 11 = none := by
  refine ⟨shamir_trick_none_iff, ?_, by decide, by decide, by decide, by decide⟩
  intro w1 w2 x y hw1 hw2 hx hy hxb hyb hcons hg
  by_cases hz : (w1 : ZMod 13) = 0
  · have hw10 : w1 = 0 := by
      have := (ZMod.natCast_zmod_eq_zero_iff_dvd w1 13).mp hz
      exact Nat.eq_zero_of_dvd_of_lt this hw1
    subst hw10
    have h20 : mod_exp w2 y MODULUS = 0 := by
      rw [← hcons, modulus_def, mod_exp_eq _ _ 13 (by omega),
        Nat.zero_pow (by omega), Nat.zero_mod]
    have hw20 : w2 = 0 := by
      rw [modulus_def, mod_exp_eq _ _ 13 (by omega)] at h20
      have hdvd : 13 ∣ w2 ^ y := Nat.dvd_of_mod_eq_zero h20
      have hp13 : (13 : Nat).Prime := by norm_num
      have hdvd2 : 13 ∣ w2 := hp13.dvd_of_dvd_pow hdvd
      exact Nat.eq_zero_of_dvd_of_lt hdvd2 hw2
    subst hw20
    refine ⟨0, shamir_zero x y hx hy hg hxb hyb, ?_⟩
    rw [Nat.zero_pow (by positivity), Nat.zero_mod, modulus_def,
      mod_exp_eq _ _ 13 (by omega), Nat.zero_pow (by omega), Nat.zero_mod]
  · have hu2 : (w2 : ZMod 13) ≠ 0 := by
      intro h20
      apply hz
      have hcast := congrArg (fun n : Nat => (n : ZMod 13)) hcons
      simp only [mod_exp_cast] at hcast
      rw [h20, zero_pow (by omega : y ≠ 0)] at hcast
      exact (pow_eq_zero_iff (by omega : x ≠ 0)).mp hcast
    obtain ⟨r, hsh, hrlt, hrv⟩ :=
      shamir_correct_units w1 w2 x y hw1 hw2 hz hu2 hcons hg hxb hyb
    refine ⟨r, hsh, ?_⟩
    apply nat_eq_of_cast_lt _ _ (Nat.mod_lt _ (by omega))
      (by rw [modulus_def]; exact mod_exp_lt _ _)
    rw [ZMod.natCast_mod, Nat.cast_pow, hrv, mod_exp_cast]

theorem claim_C2_witness :
    (11 : Nat) < 13 ∧ (6 : Nat) < 13 ∧ Nat.gcd 7 5 = 1 ∧
    mod_exp 11 7 MODULUS = mod_exp 6 5 MODULUS ∧
    ∃ r, shamir_trick 11 6 7 5 = some r ∧ r ^ (7 * 5) % 13 = mod_exp 11 7 MODULUS :=
  ⟨by norm_num, by norm_num, by decide, by decide,
    claim_C2.2.1 11 6 7 5 (by norm_num) (by norm_num) (by norm_num) (by norm_num)
      (by norm_num) (by norm_num) (by decide) (by decide)⟩

set_option maxHeartbeats 1000000 in
/-- Counterexample to claim C2 as stated: for the consecutive Fibonacci
exponents `x = F(187)`, `y = F(186)` (coprime, consistency check satisfied),
the signed Bezout arithmetic wraps at 128 bits, and `shamir_trick` silently
returns `Some 5`, which is not an `x*y`-th root of the common value `9`
(the correct combined root is `2`). -/
theorem claim_C2_counterexample :
    Nat.gcd 538522340430300790495419781092981030533
        332825110087067562321196029789634457848 = 1 ∧
    mod_exp 3 538522340430300790495419781092981030533 MODULUS
      = mod_exp 6 332825110087067562321196029789634457848 MODULUS ∧
    shamir_trick 3 6 538522340430300790495419781092981030533
        332825110087067562321196029789634457848 = some 5 ∧
    5 ^ (538522340430300790495419781092981030533
        * 332825110087067562321196029789634457848) % 13
      ≠ mod_exp 3 538522340430300790495419781092981030533 MODULUS := by
  refine ⟨by decide, by decide, by decide, ?_⟩
  have key : ∀ q : Nat, (5 : Nat) ^ (12 * q + 8) % 13 = 1 := by
    intro q
    rw [pow_add, pow_mul]
    have h2 : ((5 : Nat) ^ 12) ^ q * 5 ^ 8 ≡ 1 ^ q * 5 ^ 8 [MOD 13] :=
      Nat.ModEq.mul_right _ (Nat.ModEq.pow q (by decide))
    calc ((5 : Nat) ^ 12) ^ q * 5 ^ 8 % 13 = 1 ^ q * 5 ^ 8 % 13 := h2
      _ = 1 := by rw [one_pow]; norm_num
  have hsplit : 538522340430300790495419781092981030533
      * 332825110087067562321196029789634457848
      = 12 * (538522340430300790495419781092981030533
        * 332825110087067562321196029789634457848 / 12) + 8 := by decide
  rw [hsplit, key]
  decide

/-- Claim C4 (amended): the unsigned arithmetic of `mul_mod` and `mod_exp`
computes exact values (in Rust, `U256` overflow aborts rather than wraps, and
with reduced operands it cannot occur), and `extended_gcd`'s result satisfies
the Bezout identity whenever the signed intermediates all fit `i128` (the
exactness flag); outside that range the signed arithmetic silently wraps
instead of reporting an Overflow error (see the counterexample). -/
theorem claim_C4 :
    (∀ a b m : Nat, mul_mod a b m = a * b % m) ∧
    (∀ b e m : Nat, 2 ≤ m → mod_exp b e m = b ^ e % m) ∧
    (∀ (a b g : Nat) (x y : Int), extended_gcd a b = ((g, x, y), true) →
      (a : Int) * x + (b : Int) * y = (g : Int)) := by
  refine ⟨mul_mod_eq, mod_exp_eq, ?_⟩
  intro a b g x y h
  exact egcdAux_flag_exact a b (b + 1) a b 1 0 0 1 true (by norm_num) (by norm_num)
    g x y h

theorem claim_C4_witness :
    (2 : Nat) ≤ 13 ∧ mod_exp 2 7 13 = 2 ^ 7 % 13 ∧
    extended_gcd 13 17 = ((1, 4, -3), true) ∧
    (13 : Int) * 4 + (17 : Int) * (-3) = (1 : Nat) :=
  ⟨by norm_num, claim_C4.2.1 2 7 13 (by norm_num), by decide,
    claim_C4.2.2 13 17 1 4 (-3) (by decide)⟩

set_option maxHeartbeats 1000000 in
/-- Counterexample to claim C4 as stated: on the consecutive Fibonacci inputs
`F(187)`, `F(186)` the true Bezout coefficients exceed the `i128` range; the
function returns normally (no error is reported to the caller) with silently
wrapped coefficients that violate the Bezout identity. -/
theorem claim_C4_counterexample :
    extended_gcd 538522340430300790495419781092981030533
        332825110087067562321196029789634457848
      = ((1, -127127879743834334146972278486287885163,
          -134585136577705235289150856128421638771), false) ∧
    (538522340430300790495419781092981030533 : Int)
        * (-127127879743834334146972278486287885163)
      + (332825110087067562321196029789634457848 : Int)
        * (-134585136577705235289150856128421638771) ≠ 1 :=
  ⟨by decide, by decide⟩

/-- Claim C1 (amended): for every accumulator state `s0` (a group element
below the modulus) and every non-empty pairwise-coprime list `S` of primes
whose product stays inside the exact range of the signed Bezout arithmetic
(below `2^126`), deleting the batch right after adding it restores the
original state: `batch_delete` applied to `batch_add s0 S` with the
`(member, witness)` pairs from `S` and `create_all_mem_wit s0 S` returns
`some s0`. -/
theorem claim_C1 (s0 : Nat) (S : List Nat) (hne : S ≠ [])
    (hprime : ∀ p ∈ S, Nat.Prime p) (hcop : S.Pairwise Nat.Coprime)
    (hs0 : s0 < 13) (hbound : S.prod < 2 ^ 126) :
    ∃ wits, create_all_mem_wit s0 S = some wits ∧
      batch_delete (batch_add s0 S) (S.zip wits) = some s0 :=
  batch_roundtrip s0 S hne hprime hcop hs0 hbound

theorem claim_C1_witness :
    ([3, 5, 7] : List Nat) ≠ [] ∧ (2 : Nat) < 13 ∧
    ([3, 5, 7] : List Nat).prod < 2 ^ 126 ∧
    ∃ wits, create_all_mem_wit 2 [3, 5, 7] = some wits ∧
      batch_delete (batch_add 2 [3, 5, 7]) ([3, 5, 7].zip wits) = some 2 :=
  ⟨by simp, by norm_num, by norm_num,
    claim_C1 2 [3, 5, 7] (by simp) (by norm_num) (by norm_num) (by norm_num)
      (by norm_num)⟩

set_option maxHeartbeats 2000000 in
/-- Counterexample to claim C1 as stated: for the fourteen primes below whose
product exceeds `2^127`, the signed Bezout arithmetic inside the final
`shamir_trick` combinations wraps, and the round trip lands on the state `5`
instead of restoring the original state `2`. -/
theorem claim_C1_counterexample :
    (∀ p ∈ ([1009, 1013, 1019, 1021, 1031, 1033, 1039, 1049, 1051, 1061, 1063,
        1069, 1087, 1091] : List Nat), Nat.Prime p) ∧
    List.Pairwise Nat.Coprime ([1009, 1013, 1019, 1021, 1031, 1033, 1039, 1049,
        1051, 1061, 1063, 1069, 1087, 1091] : List Nat) ∧
    create_all_mem_wit 2 [1009, 1013, 1019, 1021, 1031, 1033, 1039, 1049, 1051,
        1061, 1063, 1069, 1087, 1091]
      = some [11, 7, 6, 11, 6, 11, 2, 7, 2, 7, 2, 11, 2, 6] ∧
    batch_delete
        (batch_add 2 [1009, 1013, 1019, 1021, 1031, 1033, 1039, 1049, 1051,
          1061, 1063, 1069, 1087, 1091])
        ([1009, 1013, 1019, 1021, 1031, 1033, 1039, 1049, 1051, 1061, 1063,
          1069, 1087, 1091].zip [11, 7, 6, 11, 6, 11, 2, 7, 2, 7, 2, 11, 2, 6])
      = some 5 ∧
    some (5 : Nat) ≠ some (2 : Nat) := by
  refine ⟨by norm_num, by decide, by decide, by decide, by simp⟩
